import Mathlib

/-!
# ethereum_parser: polling engine, chain client and transaction store

A shallow embedding of

* `internal/types/transaction.go`   (`Transaction`)
* `internal/storage/memory.go`      (`MemoryStorage`)
* `internal/ethereum/client.go`     (`Client`, `isValidEthereumAddress`)
* `internal/parser/ethereum_parser.go` (`EthereumParser`, the polling loop)

Go strings are byte sequences (`len` counts bytes, `s[2:]` drops two bytes), so a
string is a list of bytes.  An `int64` is an `Int` kept in range by `wrap64`.
A slice expression that is out of range makes the Go runtime panic; such a call
does not return and is the outcome `panicked`.
-/

set_option autoImplicit false

namespace EthParser

/-! ## Strings and machine integers -/

/-- A Go string: an immutable sequence of bytes. -/
abbrev GoString := List UInt8

/-- The bytes of a string literal (its UTF-8 encoding, as in a Go source file). -/
def bytes (s : String) : GoString := s.toUTF8.data.toList

/-- The smallest `int64`. -/
def minInt64 : Int := -(2 ^ 63)

/-- The largest `int64`. -/
def maxInt64 : Int := 2 ^ 63 - 1

/-- The `int64` that two's complement arithmetic gives for the integer `x`
(Go integer arithmetic wraps around on overflow and does not panic). -/
def wrap64 (x : Int) : Int := (x + 2 ^ 63) % 2 ^ 64 - 2 ^ 63

/-! ## `types.Transaction` -/

/-- The struct `types.Transaction`.  `Value` and `TransactionFee` are `*big.Int`:
`none` is the nil pointer. -/
structure Transaction where
  Hash : GoString
  From : GoString
  To : GoString
  Value : Option Int
  BlockNumber : Int
  Timestamp : Int
  TransactionFee : Option Int
  deriving DecidableEq, Repr

/-! ## `storage.MemoryStorage` -/

/-- The struct `MemoryStorage`: the map `transactions` from address to slice.  A key
that is absent reads as the nil slice, which is the empty sequence. -/
structure MemoryStorage where
  transactions : GoString → List Transaction

/-- `NewMemoryStorage`: the empty map. -/
def NewMemoryStorage : MemoryStorage := ⟨fun _ => []⟩

/-- `MemoryStorage.StoreTransaction`:
`ms.transactions[address] = append(ms.transactions[address], tx)`. -/
def MemoryStorage.StoreTransaction (ms : MemoryStorage) (address : GoString)
    (tx : Transaction) : MemoryStorage :=
  ⟨Function.update ms.transactions address (ms.transactions address ++ [tx])⟩

/-- `MemoryStorage.GetTransactions`: `return ms.transactions[address], nil`.  The
second component is the returned error, `none` for nil. -/
def MemoryStorage.GetTransactions (ms : MemoryStorage) (address : GoString) :
    List Transaction × Option Unit :=
  (ms.transactions address, none)

/-- A sequence of `StoreTransaction(address, tx)` calls, in order. -/
def MemoryStorage.storeAll (ms : MemoryStorage) (calls : List (GoString × Transaction)) :
    MemoryStorage :=
  calls.foldl (fun m c => m.StoreTransaction c.1 c.2) ms

/-! ## `parser.EthereumParser`: the subscription registry -/

/-- The fields of `EthereumParser` that change: `storage` and the key set of the map
`subscribers` (every stored value is `true`; no key is ever deleted).  The list
holds each key once. -/
structure EthereumParser where
  storage : MemoryStorage
  subscribers : List GoString

/-- `NewEthereumParser`: `subscribers: make(map[string]bool)`. -/
def NewEthereumParser (storage : MemoryStorage) : EthereumParser :=
  ⟨storage, []⟩

/-- `EthereumParser.Subscribe`: returns `false` when the key exists, else records it
and returns `true`. -/
def EthereumParser.Subscribe (p : EthereumParser) (address : GoString) :
    Bool × EthereumParser :=
  if address ∈ p.subscribers then (false, p)
  else (true, { p with subscribers := p.subscribers ++ [address] })

/-- A sequence of `Subscribe` calls, in order, with the value each call returned. -/
def EthereumParser.subscribeAll (p : EthereumParser) :
    List GoString → List Bool × EthereumParser
  | [] => ([], p)
  | a :: rest =>
    let r := p.Subscribe a
    let rs := EthereumParser.subscribeAll r.2 rest
    (r.1 :: rs.1, rs.2)

/-- `EthereumParser.GetTransactions`: `return p.storage.GetTransactions(address)`. -/
def EthereumParser.GetTransactions (p : EthereumParser) (address : GoString) :
    List Transaction × Option Unit :=
  p.storage.GetTransactions address

/-! ## Hexadecimal conversion: `strconv.ParseInt(s, 16, 64)` and `big.Int.SetString(s, 16)`

These two functions belong to the Go standard library.  They are transcribed for the
base and bit size the client passes: an explicit base 16 admits neither a leading
`0x` nor underscores. -/

/-- The two errors of package `strconv`: `ErrSyntax` and `ErrRange`. -/
inductive NumError where
  | malformed
  | range
  deriving DecidableEq, Repr

/-- The function `lower` of package `strconv`: `c | ('x' - 'X')`. -/
def lower (c : UInt8) : UInt8 := c ||| 0x20

/-- The value of one digit in `ParseUint`: `c - '0'` for `'0'..'9'`,
`lower(c) - 'a' + 10` for a letter, `none` for any other byte. -/
def digitOf (c : UInt8) : Option Nat :=
  if 48 ≤ c.toNat ∧ c.toNat ≤ 57 then some (c.toNat - 48)
  else if 97 ≤ (lower c).toNat ∧ (lower c).toNat ≤ 122 then some ((lower c).toNat - 97 + 10)
  else none

namespace strconv

/-- The digit loop of `ParseUint(s, 16, 64)`, with `n` the `uint64` accumulated so
far.  Returns the value and the error, as Go does (the value matters to a caller
that discards the error). -/
def parseUintLoop : List UInt8 → Nat → Nat × Option NumError
  | [], n => (n, none)
  | c :: cs, n =>
    match digitOf c with
    | none => (0, some .malformed)
    | some d =>
      if d ≥ 16 then (0, some .malformed)
      else if n ≥ (2 ^ 64 - 1) / 16 + 1 then (2 ^ 64 - 1, some .range)
      else
        let m := (n * 16) % 2 ^ 64
        let n1 := (m + d) % 2 ^ 64
        if n1 < m ∨ n1 > 2 ^ 64 - 1 then (2 ^ 64 - 1, some .range)
        else parseUintLoop cs n1

/-- `strconv.ParseUint(s, 16, 64)`. -/
def ParseUint (s : GoString) : Nat × Option NumError :=
  if s = [] then (0, some .malformed) else parseUintLoop s 0

/-- `strconv.ParseInt(s, 16, 64)`: an optional sign, then `ParseUint`; a value
outside `int64` is clamped and reported as a range error. -/
def ParseInt (s : GoString) : Int × Option NumError :=
  match s with
  | [] => (0, some .malformed)
  | c :: rest =>
    let neg : Bool := c = 45
    let body := if c = 43 ∨ c = 45 then rest else s
    match ParseUint body with
    | (_, some .malformed) => (0, some .malformed)
    | (un, _) =>
      if neg = false ∧ un ≥ 2 ^ 63 then (2 ^ 63 - 1, some .range)
      else if neg = true ∧ un > 2 ^ 63 then (-(2 ^ 63), some .range)
      else (if neg then wrap64 (-(wrap64 un)) else wrap64 un, none)

end strconv

namespace big

/-- The digits of `SetString(s, 16)`: the magnitude, `none` when a byte is not a
hexadecimal digit. -/
def scanDigits : List UInt8 → Nat → Option Nat
  | [], n => some n
  | c :: cs, n =>
    match digitOf c with
    | none => none
    | some d => if d ≥ 16 then none else scanDigits cs (n * 16 + d)

/-- `new(big.Int).SetString(s, 16)`: an optional sign and at least one hexadecimal
digit, the whole string consumed.  `none` is the result `(nil, false)`. -/
def SetString (s : GoString) : Option Int :=
  match s with
  | [] => none
  | c :: rest =>
    let body := if c = 43 ∨ c = 45 then rest else s
    if body = [] then none
    else match scanDigits body 0 with
      | none => none
      | some n => some (if c = 45 then -(n : Int) else (n : Int))

end big

/-! ## `ethereum.Client` -/

/-- A JSON-RPC request as `makeJSONRPCRequest` sends it: the method with its
parameters.  `eth_getBlockByNumber b` carries the parameters
`[fmt.Sprintf("0x%x", b), true]`. -/
inductive Request where
  | eth_blockNumber
  | eth_getBlockByNumber (blockNumber : Int)
  | eth_getBalance (address : GoString)
  deriving DecidableEq, Repr

/-- One element of `block.Transactions` as `json.Unmarshal` fills it: six strings,
empty when the JSON object lacks the field. -/
structure RawTx where
  Hash : GoString
  From : GoString
  To : GoString
  Value : GoString
  BlockNumber : GoString
  Timestamp : GoString
  deriving DecidableEq, Repr

/-- What one request yields, seen from the caller of `makeJSONRPCRequest`:
`failure` when it returns an error (transport, unreadable or invalid body, RPC error
object); otherwise the `result`, which unmarshals into a string (`text`), into the
block struct (`block`), or into neither (`undecodable`). -/
inductive Reply where
  | failure
  | undecodable
  | text (s : GoString)
  | block (txs : List RawTx)
  deriving DecidableEq, Repr

/-- The node: its reply to a request, given the requests it received before. -/
abbrev Node := List Request → Request → Reply

/-- The errors the client returns, by the message that makes them:
`invalid Ethereum address`, the error of `makeJSONRPCRequest` (wrapped as
`failed to fetch block` or returned as is), `failed to parse ...`,
`failed to convert ...`. -/
inductive ClientError where
  | invalidAddress
  | request
  | parse
  | convert
  deriving DecidableEq, Repr

/-- How a client call ends: it returns a value with a nil error, returns an error,
or panics. -/
inductive Outcome (α : Type) where
  | ok (a : α)
  | error (e : ClientError)
  | panicked
  deriving DecidableEq, Repr

/-- `makeJSONRPCRequest`: sends the request and returns the node's reply; the second
component is the list of requests sent so far. -/
def makeJSONRPCRequest (node : Node) (req : Request) (sent : List Request) :
    Reply × List Request :=
  (node sent req, sent ++ [req])

/-- `isValidEthereumAddress`: `len(address) == 42` and `address[:2] == "0x"`. -/
def isValidEthereumAddress (address : GoString) : Bool :=
  if address.length ≠ 42 then false
  else if address.take 2 ≠ bytes "0x" then false
  else true

/-- `Client.GetBlockNumber`.  `hexBlockNum[2:]` panics on a string shorter than two
bytes. -/
def Client.GetBlockNumber (node : Node) (sent : List Request) :
    Outcome Int × List Request :=
  match makeJSONRPCRequest node .eth_blockNumber sent with
  | (.failure, sent1) => (.error .request, sent1)
  | (.text hexBlockNum, sent1) =>
    if hexBlockNum.length < 2 then (.panicked, sent1)
    else match strconv.ParseInt (hexBlockNum.drop 2) with
      | (blockNum, none) => (.ok blockNum, sent1)
      | (_, some _) => (.error .convert, sent1)
  | (_, sent1) => (.error .parse, sent1)

/-- The filter of `GetTransactionsForAddress`: the transaction is skipped when
`tx.From != address && (tx.To == "" || tx.To != address)`. -/
def skipped (address : GoString) (tx : RawTx) : Bool :=
  tx.From ≠ address ∧ (tx.To = [] ∨ tx.To ≠ address)

/-- The conversion of one kept transaction: the three `[2:]` slices, then
`SetString` and `ParseInt` with their error results discarded.  `none` is a
panic. -/
def convertTx (tx : RawTx) : Option Transaction :=
  if tx.Value.length < 2 then none
  else if tx.BlockNumber.length < 2 then none
  else if tx.Timestamp.length < 2 then none
  else some
    { Hash := tx.Hash
      From := tx.From
      To := tx.To
      Value := big.SetString (tx.Value.drop 2)
      BlockNumber := (strconv.ParseInt (tx.BlockNumber.drop 2)).1
      Timestamp := (strconv.ParseInt (tx.Timestamp.drop 2)).1
      TransactionFee := none }

/-- The loop `for _, tx := range block.Transactions` of `GetTransactionsForAddress`,
with `transactions` the slice built so far. -/
def filterLoop (address : GoString) :
    List RawTx → List Transaction → Outcome (List Transaction)
  | [], transactions => .ok transactions
  | tx :: rest, transactions =>
    if skipped address tx then filterLoop address rest transactions
    else match convertTx tx with
      | none => .panicked
      | some t => filterLoop address rest (transactions ++ [t])

/-- The transactions the specification attributes to `address`: the sender equals
it, or the recipient equals it and is not empty. -/
def attributedTo (address : GoString) (tx : RawTx) : Bool :=
  tx.From = address ∨ (tx.To = address ∧ tx.To ≠ [])

/-- Each of the three numeric strings has the two bytes that `[2:]` drops. -/
def sliceable (tx : RawTx) : Bool :=
  2 ≤ tx.Value.length ∧ 2 ≤ tx.BlockNumber.length ∧ 2 ≤ tx.Timestamp.length

/-- The `types.Transaction` that `GetTransactionsForAddress` builds from a kept
transaction whose strings can be sliced. -/
def toTransaction (tx : RawTx) : Transaction :=
  { Hash := tx.Hash
    From := tx.From
    To := tx.To
    Value := big.SetString (tx.Value.drop 2)
    BlockNumber := (strconv.ParseInt (tx.BlockNumber.drop 2)).1
    Timestamp := (strconv.ParseInt (tx.Timestamp.drop 2)).1
    TransactionFee := none }

/-- `Client.GetTransactionsForAddress` (the context argument is not used by the
function). -/
def Client.GetTransactionsForAddress (node : Node) (address : GoString)
    (blockNumber : Int) (sent : List Request) :
    Outcome (List Transaction) × List Request :=
  if ¬ isValidEthereumAddress address then (.error .invalidAddress, sent)
  else match makeJSONRPCRequest node (.eth_getBlockByNumber blockNumber) sent with
    | (.failure, sent1) => (.error .request, sent1)
    | (.block txs, sent1) => (filterLoop address txs [], sent1)
    | (_, sent1) => (.error .parse, sent1)

/-- `Client.GetBalance`. -/
def Client.GetBalance (node : Node) (address : GoString) (sent : List Request) :
    Outcome Int × List Request :=
  if ¬ isValidEthereumAddress address then (.error .invalidAddress, sent)
  else match makeJSONRPCRequest node (.eth_getBalance address) sent with
    | (.failure, sent1) => (.error .request, sent1)
    | (.text hexBalance, sent1) =>
      if hexBalance.length < 2 then (.panicked, sent1)
      else match big.SetString (hexBalance.drop 2) with
        | some balance => (.ok balance, sent1)
        | none => (.error .convert, sent1)
    | (_, sent1) => (.error .parse, sent1)

/-! ## `parser.EthereumParser`: the polling engine

The engine runs against two collaborators it does not control: the node and the
webhook.  `Sys` holds the parser together with what has happened so far: the
requests sent to the node and a trace of the engine's own steps. -/

/-- A step of the engine, recorded in the order it happens: a call
`processBlock(ctx, blockNumber)`, a call
`p.client.GetTransactionsForAddress(ctx, address, blockNumber)`, a call
`p.storage.StoreTransaction(address, tx)`, and a call `notifyTransaction` with
whether `sendToWebhook` returned a nil error. -/
inductive Event where
  | processBlock (blockNumber : Int)
  | lookup (address : GoString) (blockNumber : Int)
  | store (address : GoString) (tx : Transaction)
  | post (address : GoString) (tx : Transaction) (delivered : Bool)
  deriving DecidableEq, Repr

/-- The webhook: whether a delivery succeeds, given the steps so far. -/
abbrev Webhook := List Event → GoString → Transaction → Bool

/-- The collaborators of the engine. -/
structure Env where
  node : Node
  hook : Webhook

/-- The parser with the history of its run. -/
structure Sys where
  parser : EthereumParser
  sent : List Request
  trace : List Event

/-- How a run of engine code ends: it completes, a client call panics (which ends
the process), or the model ran out of the steps it was allowed. -/
inductive Exec (α : Type) where
  | done (a : α)
  | panicked
  | outOfFuel

/-- The result of a run that completed. -/
def Exec.result {α : Type} : Exec α → Option α
  | .done a => some a
  | _ => none

/-- `EthereumParser.notifyTransaction`: posts to the webhook; either result is only
logged.  (`json.Marshal` cannot fail on this payload.) -/
def notifyTransaction (env : Env) (tx : Transaction) (address : GoString) (s : Sys) : Sys :=
  { s with trace := s.trace ++ [.post address tx (env.hook s.trace address tx)] }

/-- The loop `for _, tx := range txs` of `processBlock`: store, then notify. -/
def storeAndNotify (env : Env) (address : GoString) : List Transaction → Sys → Sys
  | [], s => s
  | tx :: rest, s =>
    let s1 : Sys :=
      { s with
        parser := { s.parser with storage := s.parser.storage.StoreTransaction address tx }
        trace := s.trace ++ [.store address tx] }
    storeAndNotify env address rest (notifyTransaction env tx address s1)

/-- One pass through the body of the retry loop: the call
`txs, err = p.client.GetTransactionsForAddress(ctx, address, blockNumber)`. -/
def attempt (env : Env) (address : GoString) (blockNumber : Int) (s : Sys) :
    Outcome (List Transaction) × Sys :=
  let r := Client.GetTransactionsForAddress env.node address blockNumber s.sent
  (r.1, { s with sent := r.2, trace := s.trace ++ [.lookup address blockNumber] })

/-- The retry loop of `processBlock`, `for retries := 0; retries < 3; retries++`,
with `remaining = 3 - retries` and `last` the current `(txs, err)`. -/
def retryLoop (env : Env) (address : GoString) (blockNumber : Int) :
    Nat → Outcome (List Transaction) → Sys → Outcome (List Transaction) × Sys
  | 0, last, s => (last, s)
  | remaining + 1, _, s =>
    match attempt env address blockNumber s with
    | (.ok txs, s1) => (.ok txs, s1)
    | (.error e, s1) => retryLoop env address blockNumber remaining (.error e) s1
    | (.panicked, s1) => (.panicked, s1)

/-- The state after `k` consecutive passes through the body of the retry loop. -/
def afterAttempts (env : Env) (address : GoString) (blockNumber : Int) : Nat → Sys → Sys
  | 0, s => s
  | k + 1, s => afterAttempts env address blockNumber k (attempt env address blockNumber s).2

/-- What the call of pass number `k + 1` of the retry loop returns, when the loop
gets that far. -/
def attemptResult (env : Env) (address : GoString) (blockNumber : Int) (k : Nat) (s : Sys) :
    Outcome (List Transaction) :=
  (attempt env address blockNumber (afterAttempts env address blockNumber k s)).1

/-- The loop `for address := range p.subscribers` of `processBlock`, over the keys
in the order the iteration visits them.  Go leaves that order unspecified: the list
is arbitrary in every statement below. -/
def processAddresses (env : Env) (blockNumber : Int) : List GoString → Sys → Exec Sys
  | [], s => .done s
  | address :: rest, s =>
    match retryLoop env address blockNumber 3 (.ok []) s with
    | (.panicked, _) => .panicked
    | (.error _, s1) => processAddresses env blockNumber rest s1
    | (.ok txs, s1) =>
      processAddresses env blockNumber rest (storeAndNotify env address txs s1)

/-- `EthereumParser.processBlock`. -/
def processBlock (env : Env) (blockNumber : Int) (s : Sys) : Exec Sys :=
  processAddresses env blockNumber s.parser.subscribers
    { s with trace := s.trace ++ [.processBlock blockNumber] }

/-- The loop `for blockNumber := ...; blockNumber <= currentBlock; blockNumber++` of
`startBlockPolling`, allowed `fuel` iterations. -/
def blockLoop (env : Env) (currentBlock : Int) : Nat → Int → Sys → Exec Sys
  | 0, blockNumber, s => if blockNumber ≤ currentBlock then .outOfFuel else .done s
  | fuel + 1, blockNumber, s =>
    if blockNumber ≤ currentBlock then
      match processBlock env blockNumber s with
      | .done s1 => blockLoop env currentBlock fuel (wrap64 (blockNumber + 1)) s1
      | .panicked => .panicked
      | .outOfFuel => .outOfFuel
    else .done s

/-- The state of `startBlockPolling` between two ticks. -/
structure Poller where
  sys : Sys
  lastProcessedBlock : Int

/-- `startBlockPolling` before the first tick: `var lastProcessedBlock int64`. -/
def Poller.start (s : Sys) : Poller := ⟨s, 0⟩

/-- One cycle: the body of `for range ticker.C` in `startBlockPolling`. -/
def pollCycle (env : Env) (fuel : Nat) (st : Poller) : Exec Poller :=
  match Client.GetBlockNumber env.node st.sys.sent with
  | (.error _, sent1) => .done { st with sys := { st.sys with sent := sent1 } }
  | (.panicked, _) => .panicked
  | (.ok currentBlock, sent1) =>
    let last := if st.lastProcessedBlock = 0 then currentBlock else st.lastProcessedBlock
    match blockLoop env currentBlock fuel (wrap64 (last + 1)) { st.sys with sent := sent1 } with
    | .done s => .done ⟨s, currentBlock⟩
    | .panicked => .panicked
    | .outOfFuel => .outOfFuel

/-- Consecutive cycles: `n` ticks of the ticker. -/
def pollCycles (env : Env) (fuel : Nat) : Nat → Poller → Exec Poller
  | 0, st => .done st
  | n + 1, st =>
    match pollCycle env fuel st with
    | .done st1 => pollCycles env fuel n st1
    | .panicked => .panicked
    | .outOfFuel => .outOfFuel

/-- The block numbers `processBlock` was called with, in order. -/
def blocksProcessed (tr : List Event) : List Int :=
  tr.filterMap fun e => match e with
    | .processBlock b => some b
    | _ => none

/-- The calls `GetTransactionsForAddress(address, blockNumber)` made, in order. -/
def lookupsMade (tr : List Event) : List (GoString × Int) :=
  tr.filterMap fun e => match e with
    | .lookup a b => some (a, b)
    | _ => none

/-- The block numbers fetched from the node, in order. -/
def blocksFetched (sent : List Request) : List Int :=
  sent.filterMap fun r => match r with
    | .eth_getBlockByNumber b => some b
    | _ => none

/-- The number of height queries sent to the node. -/
def heightQueries (sent : List Request) : Nat :=
  sent.count .eth_blockNumber

/-- A property of a node: no call of `GetTransactionsForAddress` panics on it,
whatever is asked and whatever was sent before.  It holds of a node that never
replies with a block. -/
def NoPanic (env : Env) : Prop :=
  ∀ (a : GoString) (b : Int) (sent : List Request),
    (Client.GetTransactionsForAddress env.node a b sent).1 ≠ .panicked

/-! ## Concrete nodes and inputs -/

/-- The address `0x` followed by forty times the letter `a`. -/
def addrA : GoString := bytes "0x" ++ List.replicate 40 97

/-- The address `0x` followed by forty times the letter `b`. -/
def addrB : GoString := bytes "0x" ++ List.replicate 40 98

/-- A node that answers every request with the same reply. -/
def constNode (r : Reply) : Node := fun _ _ => r

/-- A webhook that accepts every delivery. -/
def okHook : Webhook := fun _ _ _ => true

/-- A parser with the given subscribers and an empty store, before any request. -/
def freshSys (subscribers : List GoString) : Sys :=
  ⟨⟨NewMemoryStorage, subscribers⟩, [], []⟩

/-- A transaction sent by `addrA` whose JSON object has no `timestamp` member, as
the transaction objects of `eth_getBlockByNumber` are. -/
def txNoTimestamp : RawTx :=
  { Hash := bytes "0x01", From := addrA, To := addrB, Value := bytes "0x1",
    BlockNumber := bytes "0x1", Timestamp := [] }

/-- A transaction sent by `addrA` whose numeric fields are not hexadecimal. -/
def txNotHex : RawTx :=
  { Hash := bytes "0x02", From := addrA, To := addrB, Value := bytes "0xzz",
    BlockNumber := bytes "0xzz", Timestamp := bytes "0xzz" }

/-- A well-formed transaction from `sender` to `recipient` in block `0x65`. -/
def txFromTo (hash sender recipient : GoString) : RawTx :=
  { Hash := hash, From := sender, To := recipient, Value := bytes "0x10",
    BlockNumber := bytes "0x65", Timestamp := bytes "0x5f5e100" }

/-- A node whose height is 100 at the first query and 103 afterwards; block 101
holds a transaction sent by `addrA`, block 103 one received by `addrA`, every other
block one transaction between other parties. -/
def scenarioNode : Node := fun sent req =>
  match req with
  | .eth_blockNumber =>
    if heightQueries sent = 0 then .text (bytes "0x64") else .text (bytes "0x67")
  | .eth_getBlockByNumber b =>
    if b = 101 then .block [txFromTo (bytes "0xh1") addrA addrB]
    else if b = 103 then .block [txFromTo (bytes "0xh3") addrB addrA]
    else .block [txFromTo (bytes "0xh2") addrB addrB]
  | .eth_getBalance _ => .failure

/-- A node on a chain that starts at the genesis block: height 0 at the first
query, 3 afterwards; every block is empty. -/
def genesisNode : Node := fun sent req =>
  match req with
  | .eth_blockNumber =>
    if heightQueries sent = 0 then .text (bytes "0x0") else .text (bytes "0x3")
  | _ => .block []

/-- A node whose height reads 100, 101, 100, 101, ... and which fails every other
request. -/
def wobblingNode : Node := fun sent req =>
  match req with
  | .eth_blockNumber =>
    if heightQueries sent % 2 = 0 then .text (bytes "0x64") else .text (bytes "0x65")
  | _ => .failure

/-! ## Runs of several cycles, and what does not depend on the webhook -/

/-- The step with the result of the delivery left out. -/
def Event.forget : Event → Event
  | .post a tx _ => .post a tx true
  | e => e

/-- The state with the results of the deliveries left out of the trace. -/
def Sys.forget (s : Sys) : Sys :=
  { s with trace := s.trace.map Event.forget }

/-- The result of a run, transformed. -/
def Exec.map {α β : Type} (f : α → β) : Exec α → Exec β
  | .done a => .done (f a)
  | .panicked => .panicked
  | .outOfFuel => .outOfFuel

/-- The steps of `for _, tx := range txs` when the deliveries end as `ds` says: for
each transaction its store append, then its notification. -/
def storeSteps (address : GoString) : List Transaction → List Bool → List Event
  | tx :: txs, d :: ds => .store address tx :: .post address tx d :: storeSteps address txs ds
  | _, _ => []

/-- The block numbers `lo, lo + 1, ..., hi` in increasing order (none when
`hi < lo`). -/
def interval (lo hi : Int) : List Int :=
  (List.range (hi + 1 - lo).toNat).map (fun (i : Nat) => lo + (i : Int))

/-- The height a cycle starting in `st` observes: `none` when the height query does
not succeed. -/
def heightResult (env : Env) (st : Poller) : Option Int :=
  match (Client.GetBlockNumber env.node st.sys.sent).1 with
  | .ok H => some H
  | _ => none

/-- The heights the successful height queries of the first `n` cycles return, in
order. -/
def observedHeights (env : Env) (fuel : Nat) : Nat → Poller → List Int
  | 0, _ => []
  | n + 1, st =>
    match pollCycle env fuel st with
    | .done st1 => (heightResult env st).toList ++ observedHeights env fuel n st1
    | _ => (heightResult env st).toList

/-- The value of `lastProcessedBlock` at the end of each of the first `n` cycles. -/
def cursors (env : Env) (fuel : Nat) : Nat → Poller → List Int
  | 0, _ => []
  | n + 1, st =>
    match pollCycle env fuel st with
    | .done st1 => st1.lastProcessedBlock :: cursors env fuel n st1
    | _ => []

/-- The blocks the cycles process when they start with cursor `c` and observe the
heights `hs`: a cycle with cursor 0 processes none, another one the blocks above the
cursor up to the height. -/
def expectedBlocks : Int → List Int → List Int
  | _, [] => []
  | c, H :: rest => (if c = 0 then [] else interval (c + 1) H) ++ expectedBlocks H rest

/-- Whether a run ended in a panic. -/
def Exec.panics {α : Type} : Exec α → Bool
  | .panicked => true
  | _ => false

/-- The value a completed run ended with, `d` for a run that did not complete. -/
def Exec.getD {α : Type} (d : α) : Exec α → α
  | .done a => a
  | _ => d

/-- The calls `StoreTransaction(address, tx)` made, in order. -/
def appendsMade (tr : List Event) : List (GoString × Transaction) :=
  tr.filterMap fun e => match e with
    | .store a tx => some (a, tx)
    | _ => none

/-- The calls `notifyTransaction(tx, address, ...)` made, in order. -/
def notificationsMade (tr : List Event) : List (GoString × Transaction) :=
  tr.filterMap fun e => match e with
    | .post a tx _ => some (a, tx)
    | _ => none

/-- The part of `processBlock` that precedes the turn of a subscriber: the call is
recorded and the subscribers `pre`, which the iteration visits first, are
processed. -/
def beforeTurn (env : Env) (blockNumber : Int) (pre : List GoString) (s : Sys) : Exec Sys :=
  processAddresses env blockNumber pre { s with trace := s.trace ++ [.processBlock blockNumber] }

/-- The address `0x` followed by forty times the letter `c`. -/
def addrC : GoString := bytes "0x" ++ List.replicate 40 99

/-- A webhook that refuses every delivery. -/
def failHook : Webhook := fun _ _ _ => false

/-- A webhook that refuses the first delivery, accepts the second, and so on. -/
def flakyHook : Webhook := fun tr _ _ => (notificationsMade tr).length % 2 = 1

/-- A node as `scenarioNode`, except that the transaction of block 102, between
other parties, has no `timestamp` member: a lookup for `addrB` in that block
panics, a lookup for `addrA` does not. -/
def timestamplessNode : Node := fun sent req =>
  match req with
  | .eth_blockNumber =>
    if heightQueries sent = 0 then .text (bytes "0x64") else .text (bytes "0x67")
  | .eth_getBlockByNumber b =>
    if b = 101 then .block [txFromTo (bytes "0xh1") addrA addrB]
    else if b = 103 then .block [txFromTo (bytes "0xh3") addrB addrA]
    else .block [{ txNoTimestamp with From := addrB, To := addrB }]
  | .eth_getBalance _ => .failure

/-- A node every block of which holds three transactions: one sent by `addrA`, one
between other parties, one received by `addrA`. -/
def busyNode : Node := fun _ req =>
  match req with
  | .eth_getBlockByNumber _ =>
    .block [txFromTo (bytes "0xh1") addrA addrB, txFromTo (bytes "0xh2") addrB addrB,
            txFromTo (bytes "0xh3") addrB addrA]
  | _ => .failure

/-- A transaction stored before the run. -/
def oldTx : Transaction :=
  { Hash := bytes "0xh0", From := addrA, To := addrB, Value := some 1, BlockNumber := 1,
    Timestamp := 1, TransactionFee := none }

/-- A parser with the subscribers `addrC`, `addrA`, `addrB`, in the order the
iteration visits them, and one transaction already stored under `addrA`. -/
def storedSys : Sys :=
  ⟨⟨NewMemoryStorage.StoreTransaction addrA oldTx, [addrC, addrA, addrB]⟩, [], []⟩

/-! # Theorems -/
/-! ## The subscription registry -/

theorem mem_subscribe (p : EthereumParser) (a x : GoString) :
    x ∈ (p.Subscribe a).2.subscribers ↔ x = a ∨ x ∈ p.subscribers := by
  unfold EthereumParser.Subscribe
  by_cases h : a ∈ p.subscribers
  · simp only [h, if_true]
    constructor
    · intro hx; exact Or.inr hx
    · rintro (rfl | hx)
      · exact h
      · exact hx
  · simp only [h, if_false, List.mem_append, List.mem_singleton]
    tauto

theorem subscribe_fst (p : EthereumParser) (a : GoString) :
    (p.Subscribe a).1 = decide (a ∉ p.subscribers) := by
  unfold EthereumParser.Subscribe
  by_cases h : a ∈ p.subscribers <;> simp [h]

theorem subscribeAll_getElem (calls : List GoString) :
    ∀ (p : EthereumParser) (i : Nat) (a : GoString), calls[i]? = some a →
      (p.subscribeAll calls).1[i]? = some (decide (a ∉ p.subscribers ∧ a ∉ calls.take i)) := by
  induction calls with
  | nil => intro p i a h; simp at h
  | cons c rest ih =>
    intro p i a h
    cases i with
    | zero =>
      simp only [List.getElem?_cons_zero, Option.some.injEq] at h
      subst h
      simp [EthereumParser.subscribeAll, subscribe_fst]
    | succ j =>
      simp only [List.getElem?_cons_succ] at h
      have := ih (p.Subscribe c).2 j a h
      simp only [EthereumParser.subscribeAll, List.getElem?_cons_succ, this, Option.some.injEq,
        List.take_succ_cons, List.mem_cons, mem_subscribe, decide_eq_decide]
      tauto

theorem mem_subscribeAll (calls : List GoString) :
    ∀ (p : EthereumParser) (x : GoString),
      x ∈ (p.subscribeAll calls).2.subscribers ↔ x ∈ p.subscribers ∨ x ∈ calls := by
  induction calls with
  | nil => intro p x; simp [EthereumParser.subscribeAll]
  | cons c rest ih =>
    intro p x
    simp only [EthereumParser.subscribeAll, ih, mem_subscribe, List.mem_cons]
    tauto

/-- C1: `Subscribe(a)` returns true exactly when `a` is not yet a key of the
registry, whatever string `a` is, and afterwards the registry holds the old keys and
`a`; so in any sequence of calls on a new parser, a call returns true exactly when
its address does not occur earlier in the sequence. -/
theorem subscribe_true_iff_new (p : EthereumParser) (a : GoString) :
    ((p.Subscribe a).1 = true ↔ a ∉ p.subscribers) ∧
    (∀ x, x ∈ (p.Subscribe a).2.subscribers ↔ x = a ∨ x ∈ p.subscribers) ∧
    (p.Subscribe a).2.storage = p.storage ∧
    (∀ (st : MemoryStorage) (calls : List GoString) (i : Nat), calls[i]? = some a →
      ((NewEthereumParser st).subscribeAll calls).1[i]? = some (decide (a ∉ calls.take i))) := by
  refine ⟨?_, mem_subscribe p a, ?_, ?_⟩
  · simp [subscribe_fst]
  · unfold EthereumParser.Subscribe
    by_cases h : a ∈ p.subscribers <;> simp [h]
  · intro st calls i h
    have := subscribeAll_getElem calls (NewEthereumParser st) i a h
    simpa [NewEthereumParser] using this

theorem subscribe_true_iff_new_witness :
    ((NewEthereumParser NewMemoryStorage).subscribeAll
        [bytes "0xa", [], bytes "0xa", bytes "b", []]).1
      = [true, true, false, true, false] ∧
    ((NewEthereumParser NewMemoryStorage).subscribeAll
        [bytes "0xa", [], bytes "0xa"]).1[2]? = some (decide (bytes "0xa" ∉ [bytes "0xa", []])) :=
  ⟨by decide,
   (subscribe_true_iff_new (NewEthereumParser NewMemoryStorage) (bytes "0xa")).2.2.2
     NewMemoryStorage [bytes "0xa", [], bytes "0xa"] 2 (by decide)⟩

/-! ## The transaction store -/

theorem storeAll_transactions (calls : List (GoString × Transaction)) :
    ∀ (ms : MemoryStorage) (a : GoString),
      (ms.storeAll calls).transactions a
        = ms.transactions a ++ (calls.filter (fun c => c.1 = a)).map (fun c => c.2) := by
  induction calls with
  | nil => intro ms a; simp [MemoryStorage.storeAll]
  | cons c rest ih =>
    intro ms a
    have h := ih (ms.StoreTransaction c.1 c.2) a
    simp only [MemoryStorage.storeAll, List.foldl_cons] at h ⊢
    rw [h]
    by_cases hc : c.1 = a
    · subst hc
      simp [MemoryStorage.StoreTransaction, List.filter_cons]
    · have hc2 : a ≠ c.1 := fun e => hc e.symm
      simp [MemoryStorage.StoreTransaction, List.filter_cons, hc, Function.update_noteq hc2]

/-- C2: after any sequence of `StoreTransaction` calls on a new store,
`GetTransactions(a)` returns a nil error and the transactions stored under `a`, in
the order of the calls; its length is the number of calls for `a`. -/
theorem getTransactions_storeAll (calls : List (GoString × Transaction)) (a : GoString) :
    (NewMemoryStorage.storeAll calls).GetTransactions a
      = ((calls.filter (fun c => c.1 = a)).map (fun c => c.2), none) ∧
    ((NewMemoryStorage.storeAll calls).GetTransactions a).1.length
      = calls.countP (fun c => c.1 = a) := by
  have h := storeAll_transactions calls NewMemoryStorage a
  simp only [NewMemoryStorage, List.nil_append] at h
  refine ⟨?_, ?_⟩
  · simp [MemoryStorage.GetTransactions, NewMemoryStorage, h]
  · simp [MemoryStorage.GetTransactions, NewMemoryStorage, h, List.countP_eq_length_filter]
/-! ## The chain client -/

theorem isValid_iff (a : GoString) :
    isValidEthereumAddress a = true ↔ (a.length = 42 ∧ a.take 2 = bytes "0x") := by
  unfold isValidEthereumAddress
  by_cases h1 : a.length = 42 <;> by_cases h2 : a.take 2 = bytes "0x" <;> simp [h1, h2]

theorem filterLoop_ne_error (a : GoString) (txs : List RawTx) :
    ∀ (acc : List Transaction) (e : ClientError), filterLoop a txs acc ≠ .error e := by
  induction txs with
  | nil => intro acc e; simp [filterLoop]
  | cons tx rest ih =>
    intro acc e
    unfold filterLoop
    split
    · exact ih acc e
    · split
      · simp
      · exact ih _ e

/-- C4: `GetTransactionsForAddress` and `GetBalance` return the invalid-address
error exactly when the address is not 42 bytes long or does not begin with `0x`,
whatever the node would reply; they send one request when the address is valid and
none when it is not. -/
theorem invalidAddress_iff (node : Node) (a : GoString) (b : Int) (sent : List Request) :
    ((Client.GetTransactionsForAddress node a b sent).1 = .error .invalidAddress
      ↔ ¬ (a.length = 42 ∧ a.take 2 = bytes "0x")) ∧
    ((Client.GetTransactionsForAddress node a b sent).2
      = if a.length = 42 ∧ a.take 2 = bytes "0x" then sent ++ [.eth_getBlockByNumber b]
        else sent) ∧
    ((Client.GetBalance node a sent).1 = .error .invalidAddress
      ↔ ¬ (a.length = 42 ∧ a.take 2 = bytes "0x")) ∧
    ((Client.GetBalance node a sent).2
      = if a.length = 42 ∧ a.take 2 = bytes "0x" then sent ++ [.eth_getBalance a]
        else sent) := by
  by_cases hv : isValidEthereumAddress a = true
  · have hv2 := (isValid_iff a).1 hv
    simp only [hv2, and_self, not_true_eq_false, iff_false, if_true]
    refine ⟨?_, ?_, ?_, ?_⟩
    · simp only [Client.GetTransactionsForAddress, hv, not_true_eq_false, if_false,
        makeJSONRPCRequest]
      cases node sent (.eth_getBlockByNumber b) <;> simp [filterLoop_ne_error]
    · simp only [Client.GetTransactionsForAddress, hv, not_true_eq_false, if_false,
        makeJSONRPCRequest]
      cases node sent (.eth_getBlockByNumber b) <;> simp
    · simp only [Client.GetBalance, hv, not_true_eq_false, if_false, makeJSONRPCRequest]
      cases node sent (.eth_getBalance a) with
      | text s =>
        simp only
        split
        · simp
        · split <;> simp
      | _ => simp
    · simp only [Client.GetBalance, hv, not_true_eq_false, if_false, makeJSONRPCRequest]
      cases node sent (.eth_getBalance a) with
      | text s =>
        simp only
        split
        · simp
        · split <;> simp
      | _ => simp
  · have hv2 : ¬ (a.length = 42 ∧ a.take 2 = bytes "0x") := fun h => hv ((isValid_iff a).2 h)
    simp [Client.GetTransactionsForAddress, Client.GetBalance, hv, hv2]


theorem skipped_eq_not_attributedTo (a : GoString) (tx : RawTx) :
    skipped a tx = !attributedTo a tx := by
  unfold skipped attributedTo
  by_cases h1 : tx.From = a <;> by_cases h2 : tx.To = a <;> by_cases h3 : tx.To = [] <;>
    simp [h1, h2, h3]

theorem convertTx_eq (tx : RawTx) :
    convertTx tx = if sliceable tx then some (toTransaction tx) else none := by
  by_cases hs : 2 ≤ tx.Value.length ∧ 2 ≤ tx.BlockNumber.length ∧ 2 ≤ tx.Timestamp.length
  · obtain ⟨g1, g2, g3⟩ := hs
    have h1 : ¬ tx.Value.length < 2 := by omega
    have h2 : ¬ tx.BlockNumber.length < 2 := by omega
    have h3 : ¬ tx.Timestamp.length < 2 := by omega
    simp [convertTx, sliceable, toTransaction, g1, g2, g3, h1, h2, h3]
  · have hs2 : sliceable tx = false := by simp [sliceable, hs]
    rw [hs2]
    simp only [Bool.false_eq_true, if_false]
    unfold convertTx
    split_ifs with h1 h2 h3
    · rfl
    · rfl
    · rfl
    · exact absurd ⟨by omega, by omega, by omega⟩ hs

/-- The loop of `GetTransactionsForAddress` keeps, in block order, the transactions
attributed to the address, and panics exactly when one of them has a numeric string
shorter than two bytes. -/
theorem filterLoop_eq (a : GoString) (txs : List RawTx) :
    ∀ (acc : List Transaction),
      filterLoop a txs acc
        = if (txs.filter (attributedTo a)).all sliceable
          then .ok (acc ++ (txs.filter (attributedTo a)).map toTransaction)
          else .panicked := by
  induction txs with
  | nil => intro acc; simp [filterLoop]
  | cons tx rest ih =>
    intro acc
    unfold filterLoop
    rw [skipped_eq_not_attributedTo, convertTx_eq]
    by_cases hk : attributedTo a tx = true
    · by_cases hs : sliceable tx = true
      · simp only [hk, hs, Bool.not_true, if_true, List.filter_cons_of_pos,
          List.all_cons, Bool.true_and, List.map_cons, ih]
        simp
      · simp [hk, hs]
    · simp only [Bool.not_eq_true] at hk
      simp [hk, ih]

/-- For a valid address and a block that was fetched and parsed,
`GetTransactionsForAddress` returns the attributed transactions in block order when
each of them can be sliced, and panics otherwise. -/
theorem getTransactionsForAddress_eq (node : Node) (a : GoString) (b : Int)
    (sent : List Request) (txs : List RawTx) (hv : isValidEthereumAddress a = true)
    (hb : node sent (.eth_getBlockByNumber b) = .block txs) :
    (Client.GetTransactionsForAddress node a b sent).1
      = if (txs.filter (attributedTo a)).all sliceable
        then .ok ((txs.filter (attributedTo a)).map toTransaction)
        else .panicked := by
  simp only [Client.GetTransactionsForAddress, hv, not_true_eq_false, if_false,
    makeJSONRPCRequest, hb, filterLoop_eq, List.nil_append]

/-! ## The polling engine: one cycle -/

theorem wrap64_range (x : Int) : minInt64 ≤ wrap64 x ∧ wrap64 x ≤ maxInt64 := by
  unfold wrap64 minInt64 maxInt64
  omega

theorem wrap64_id (x : Int) (h1 : minInt64 ≤ x) (h2 : x ≤ maxInt64) : wrap64 x = x := by
  unfold wrap64 minInt64 maxInt64 at *
  omega

theorem ParseInt_range (s : GoString) (v : Int) (h : strconv.ParseInt s = (v, none)) :
    minInt64 ≤ v ∧ v ≤ maxInt64 := by
  unfold strconv.ParseInt at h
  split at h
  · simp at h
  · simp only at h
    split at h
    · simp at h
    · split at h
      · simp at h
      · split at h
        · simp at h
        · simp only [Prod.mk.injEq, and_true] at h
          subst h
          split <;> exact wrap64_range _

theorem GetBlockNumber_eq (node : Node) (sent : List Request) :
    Client.GetBlockNumber node sent
      = ((Client.GetBlockNumber node sent).1, sent ++ [.eth_blockNumber]) := by
  unfold Client.GetBlockNumber makeJSONRPCRequest
  cases node sent .eth_blockNumber with
  | text s =>
    simp only
    split
    · rfl
    · split <;> rfl
  | _ => rfl

theorem GetBlockNumber_range (node : Node) (sent : List Request) (H : Int)
    (h : (Client.GetBlockNumber node sent).1 = .ok H) : minInt64 ≤ H ∧ H ≤ maxInt64 := by
  unfold Client.GetBlockNumber makeJSONRPCRequest at h
  cases hr : node sent .eth_blockNumber with
  | text s =>
    rw [hr] at h
    simp only at h
    split at h
    · simp at h
    · split at h
      · rename_i v hv
        simp only [Outcome.ok.injEq] at h
        subst h
        exact ParseInt_range _ _ hv
      · simp at h
  | _ => rw [hr] at h; simp at h

theorem pollCycle_error (env : Env) (fuel : Nat) (st : Poller) (e : ClientError)
    (h : (Client.GetBlockNumber env.node st.sys.sent).1 = .error e) :
    pollCycle env fuel st
      = .done ⟨{ st.sys with sent := st.sys.sent ++ [.eth_blockNumber] }, st.lastProcessedBlock⟩ := by
  unfold pollCycle
  rw [GetBlockNumber_eq, h]

theorem blockLoop_past (env : Env) (H : Int) (fuel : Nat) (b : Int) (s : Sys) (h : H < b) :
    blockLoop env H fuel b s = .done s := by
  cases fuel <;> simp [blockLoop, not_le.2 h]

theorem pollCycle_first (env : Env) (fuel : Nat) (s : Sys) (H : Int)
    (h : (Client.GetBlockNumber env.node s.sent).1 = .ok H) (hH : H ≠ maxInt64) :
    pollCycle env fuel ⟨s, 0⟩
      = .done ⟨{ s with sent := s.sent ++ [.eth_blockNumber] }, H⟩ := by
  have hr := GetBlockNumber_range _ _ _ h
  have hw : wrap64 (H + 1) = H + 1 := by
    apply wrap64_id
    · have := hr.1; unfold minInt64 at *; omega
    · have := hr.2; unfold maxInt64 at *; omega
  unfold pollCycle
  rw [GetBlockNumber_eq, h]
  simp only [if_true, hw]
  rw [blockLoop_past env H fuel (H + 1) _ (by omega)]

/-! ## The polling engine: what one block adds to the trace -/

theorem blocksProcessed_append (l1 l2 : List Event) :
    blocksProcessed (l1 ++ l2) = blocksProcessed l1 ++ blocksProcessed l2 := by
  simp [blocksProcessed, List.filterMap_append]

theorem lookupsMade_append (l1 l2 : List Event) :
    lookupsMade (l1 ++ l2) = lookupsMade l1 ++ lookupsMade l2 := by
  simp [lookupsMade, List.filterMap_append]

theorem blocksProcessed_replicate_lookup (k : Nat) (a : GoString) (b : Int) :
    blocksProcessed (List.replicate k (.lookup a b)) = [] := by
  induction k with
  | zero => rfl
  | succ k ih => simp [List.replicate_succ, blocksProcessed]

theorem lookupsMade_replicate_lookup (k : Nat) (a : GoString) (b : Int) :
    lookupsMade (List.replicate k (.lookup a b)) = List.replicate k (a, b) := by
  induction k with
  | zero => rfl
  | succ k ih => simp [List.replicate_succ, lookupsMade]

theorem retryLoop_trace (env : Env) (a : GoString) (b : Int) (n : Nat) :
    ∀ (last : Outcome (List Transaction)) (s : Sys),
      ∃ k, k ≤ n ∧
        (retryLoop env a b n last s).2.trace = s.trace ++ List.replicate k (.lookup a b) ∧
        (retryLoop env a b n last s).2.parser = s.parser := by
  induction n with
  | zero => intro last s; exact ⟨0, le_refl _, by simp [retryLoop], rfl⟩
  | succ n ih =>
    intro last s
    unfold retryLoop
    cases hr : (Client.GetTransactionsForAddress env.node a b s.sent).1 with
    | ok txs =>
      refine ⟨1, by omega, ?_, ?_⟩ <;> simp [attempt, hr]
    | panicked =>
      refine ⟨1, by omega, ?_, ?_⟩ <;> simp [attempt, hr]
    | error e =>
      simp only [attempt, hr]
      obtain ⟨k, hk, h1, h2⟩ := ih (.error e)
        { s with sent := (Client.GetTransactionsForAddress env.node a b s.sent).2,
                 trace := s.trace ++ [.lookup a b] }
      refine ⟨k + 1, by omega, ?_, ?_⟩
      · rw [h1]; simp [List.replicate_succ]
      · rw [h2]

theorem retryLoop_noPanic (env : Env) (hnp : NoPanic env) (a : GoString) (b : Int) (n : Nat) :
    ∀ (last : Outcome (List Transaction)) (s : Sys), last ≠ .panicked →
      (retryLoop env a b n last s).1 ≠ .panicked := by
  induction n with
  | zero => intro last s h; simpa [retryLoop] using h
  | succ n ih =>
    intro last s _
    unfold retryLoop
    cases hr : (Client.GetTransactionsForAddress env.node a b s.sent).1 with
    | ok txs => simp [attempt, hr]
    | panicked => exact absurd hr (hnp a b s.sent)
    | error e =>
      simp only [attempt, hr]
      exact ih _ _ (by simp)

theorem storeAndNotify_trace (env : Env) (a : GoString) (txs : List Transaction) :
    ∀ (s : Sys), ∃ ext,
      (storeAndNotify env a txs s).trace = s.trace ++ ext ∧
      (storeAndNotify env a txs s).parser.subscribers = s.parser.subscribers ∧
      (storeAndNotify env a txs s).sent = s.sent ∧
      blocksProcessed ext = [] ∧ lookupsMade ext = [] := by
  induction txs with
  | nil => intro s; exact ⟨[], by simp [storeAndNotify], rfl, rfl, rfl, rfl⟩
  | cons tx rest ih =>
    intro s
    unfold storeAndNotify
    obtain ⟨ext, h1, h2, h3, h4, h5⟩ := ih (notifyTransaction env tx a
      { s with
        parser := { s.parser with storage := s.parser.storage.StoreTransaction a tx }
        trace := s.trace ++ [.store a tx] })
    refine ⟨[.store a tx, .post a tx (env.hook (s.trace ++ [.store a tx]) a tx)] ++ ext,
      ?_, ?_, ?_, ?_, ?_⟩
    · rw [h1]; simp [notifyTransaction]
    · rw [h2]; rfl
    · rw [h3]; rfl
    · rw [blocksProcessed_append, h4]; rfl
    · rw [lookupsMade_append, h5]; rfl

theorem processAddresses_done (env : Env) (hnp : NoPanic env) (b : Int)
    (addrs : List GoString) :
    ∀ (s : Sys), ∃ s1 ext,
      processAddresses env b addrs s = .done s1 ∧
      s1.trace = s.trace ++ ext ∧
      s1.parser.subscribers = s.parser.subscribers ∧
      blocksProcessed ext = [] ∧
      (∀ p ∈ lookupsMade ext, p.2 = b) := by
  induction addrs with
  | nil => intro s; exact ⟨s, [], rfl, by simp, rfl, rfl, by simp [lookupsMade]⟩
  | cons a rest ih =>
    intro s
    obtain ⟨k, _, ht, hp⟩ := retryLoop_trace env a b 3 (.ok []) s
    have hn := retryLoop_noPanic env hnp a b 3 (.ok []) s (by simp)
    unfold processAddresses
    cases hr : retryLoop env a b 3 (.ok []) s with
    | mk r s2 =>
      rw [hr] at ht hp hn
      simp only at ht hp hn
      cases r with
      | panicked => exact absurd rfl hn
      | error e =>
        simp only
        obtain ⟨s3, ext, h1, h2, h3, h4, h5⟩ := ih s2
        refine ⟨s3, List.replicate k (.lookup a b) ++ ext, h1, ?_, ?_, ?_, ?_⟩
        · rw [h2, ht, List.append_assoc]
        · rw [h3, hp]
        · rw [blocksProcessed_append, h4, blocksProcessed_replicate_lookup]; rfl
        · intro p hpm
          rw [lookupsMade_append, lookupsMade_replicate_lookup, List.mem_append] at hpm
          rcases hpm with hpm | hpm
          · rw [List.eq_of_mem_replicate hpm]
          · exact h5 p hpm
      | ok txs =>
        simp only
        obtain ⟨ext1, g1, g2, _, g4, g5⟩ := storeAndNotify_trace env a txs s2
        obtain ⟨s3, ext, h1, h2, h3, h4, h5⟩ := ih (storeAndNotify env a txs s2)
        refine ⟨s3, List.replicate k (.lookup a b) ++ (ext1 ++ ext), h1, ?_, ?_, ?_, ?_⟩
        · rw [h2, g1, ht]; simp only [List.append_assoc]
        · rw [h3, g2, hp]
        · rw [blocksProcessed_append, blocksProcessed_append, h4, g4,
            blocksProcessed_replicate_lookup]; rfl
        · intro p hpm
          simp only [lookupsMade_append, lookupsMade_replicate_lookup, g5, List.nil_append,
            List.mem_append] at hpm
          rcases hpm with hpm | hpm
          · rw [List.eq_of_mem_replicate hpm]
          · exact h5 p hpm

theorem processBlock_done (env : Env) (hnp : NoPanic env) (b : Int) (s : Sys) :
    ∃ s1 ext,
      processBlock env b s = .done s1 ∧
      s1.trace = s.trace ++ ext ∧
      s1.parser.subscribers = s.parser.subscribers ∧
      blocksProcessed ext = [b] ∧
      (∀ p ∈ lookupsMade ext, p.2 = b) := by
  obtain ⟨s1, ext, h1, h2, h3, h4, h5⟩ := processAddresses_done env hnp b s.parser.subscribers
    { s with trace := s.trace ++ [.processBlock b] }
  refine ⟨s1, .processBlock b :: ext, h1, ?_, h3, ?_, ?_⟩
  · rw [h2]; simp
  · have := blocksProcessed_append [.processBlock b] ext
    simp only [List.singleton_append] at this
    rw [this, h4]; rfl
  · intro p hpm
    have := lookupsMade_append [.processBlock b] ext
    simp only [List.singleton_append] at this
    rw [this] at hpm
    exact h5 p (by simpa [lookupsMade] using hpm)

/-! ## The polling engine: the block loop of one cycle -/

theorem range_succ_map_add (b : Int) (m : Nat) :
    (List.range (m + 1)).map (fun (i : Nat) => b + (i : Int))
      = b :: (List.range m).map (fun (i : Nat) => b + 1 + (i : Int)) := by
  rw [List.range_succ_eq_map]
  simp only [List.map_cons, List.map_map, Nat.cast_zero, add_zero, List.cons.injEq, true_and]
  apply List.map_congr_left
  intro i _
  show b + ((i + 1 : Nat) : Int) = b + 1 + (i : Int)
  omega

/-! ## Claims about the chain client: evaluation -/

/-- C3: a block that is fetched and parsed, holding one transaction sent by the
address, makes `GetTransactionsForAddress` panic when that transaction has no
`timestamp` member (or any numeric field shorter than two bytes): the call does not
return the transaction. -/
theorem getTransactionsForAddress_panics_on_short_field :
    isValidEthereumAddress addrA = true ∧
    skipped addrA txNoTimestamp = false ∧
    (Client.GetTransactionsForAddress (constNode (.block [txNoTimestamp])) addrA 1 []).1
      = .panicked := by
  decide

/-- C5: a numeric string without the `0x` marker is decoded from its third byte on
and a result is returned (`GetBlockNumber`, `GetBalance`); a string shorter than two
bytes makes the call panic; and `GetTransactionsForAddress` returns a transaction
with a nil value and zero block number and timestamp when the text after the marker
is not hexadecimal. -/
theorem hex_fields_not_checked :
    (Client.GetBlockNumber (constNode (.text (bytes "zz10"))) []).1 = .ok 16 ∧
    (Client.GetBalance (constNode (.text (bytes "zz10"))) addrA []).1 = .ok 16 ∧
    (Client.GetBlockNumber (constNode (.text [])) []).1 = .panicked ∧
    (Client.GetBalance (constNode (.text (bytes "0"))) addrA []).1 = .panicked ∧
    (Client.GetTransactionsForAddress (constNode (.block [txNotHex])) addrA 1 []).1
      = .ok [{ Hash := bytes "0x02", From := addrA, To := addrB, Value := none,
               BlockNumber := 0, Timestamp := 0, TransactionFee := none }] ∧
    (Client.GetBalance (constNode (.text (bytes "0xzz"))) addrA []).1 = .error .convert := by
  decide

/-! ## The polling engine: cycles -/

theorem blockLoop_diverges (env : Env) (hnp : NoPanic env) :
    ∀ (fuel : Nat) (b : Int) (s : Sys), b ≤ maxInt64 →
      blockLoop env maxInt64 fuel b s = .outOfFuel := by
  intro fuel
  induction fuel with
  | zero => intro b s hb; simp [blockLoop, hb]
  | succ f ih =>
    intro b s hb
    obtain ⟨s1, ext, p1, _⟩ := processBlock_done env hnp b s
    simp only [blockLoop, hb, if_true, p1]
    exact ih _ s1 (wrap64_range _).2

theorem noPanic_of_text (t : GoString) (hook : Webhook) : NoPanic ⟨constNode (.text t), hook⟩ := by
  intro a b sent
  unfold Client.GetTransactionsForAddress makeJSONRPCRequest constNode
  split <;> simp

theorem replicate_succ_append (l : List Request) (k : Nat) (q : Request) :
    l ++ [q] ++ List.replicate k q = l ++ List.replicate (k + 1) q := by
  simp [List.replicate_succ]

theorem pollCycles_failures_then_success (env : Env) (fuel : Nat) (H : Int)
    (hH : H ≠ maxInt64) (n : Nat) :
    ∀ (s : Sys),
      (∀ k, k < n → ∃ e, (Client.GetBlockNumber env.node
          (s.sent ++ List.replicate k .eth_blockNumber)).1 = .error e) →
      (Client.GetBlockNumber env.node
          (s.sent ++ List.replicate n .eth_blockNumber)).1 = .ok H →
      pollCycles env fuel (n + 1) (Poller.start s)
        = .done ⟨{ s with sent := s.sent ++ List.replicate (n + 1) .eth_blockNumber }, H⟩ := by
  induction n with
  | zero =>
    intro s _ hok
    simp only [List.replicate_zero, List.append_nil] at hok
    simp only [pollCycles, Poller.start, pollCycle_first env fuel s H hok hH]
    rfl
  | succ n ih =>
    intro s hfail hok
    obtain ⟨e, he⟩ := hfail 0 (by omega)
    simp only [List.replicate_zero, List.append_nil] at he
    have h1 := pollCycle_error env fuel (Poller.start s) e he
    have h2 := ih { s with sent := s.sent ++ [.eth_blockNumber] }
      (by
        intro k hk
        obtain ⟨e2, he2⟩ := hfail (k + 1) (by omega)
        exact ⟨e2, by simpa only [replicate_succ_append] using he2⟩)
      (by simpa only [replicate_succ_append] using hok)
    rw [pollCycles, h1]
    simp only [Poller.start] at h2 ⊢
    rw [h2]
    simp only [replicate_succ_append]

/-- C6 as amended: when the cursor still holds its initial value because every
earlier height query failed, and the height query of this cycle returns a height `H`
other than the largest `int64`, the cycle completes without processing a block (no
lookup, no store append, no notification: the trace and the parser are unchanged,
the only requests sent are the height queries) and leaves the cursor at `H`. -/
theorem first_successful_cycle_skips_backlog (env : Env) (fuel : Nat) (s : Sys) (H : Int)
    (n : Nat)
    (hfail : ∀ k, k < n → ∃ e, (Client.GetBlockNumber env.node
        (s.sent ++ List.replicate k .eth_blockNumber)).1 = .error e)
    (hok : (Client.GetBlockNumber env.node
        (s.sent ++ List.replicate n .eth_blockNumber)).1 = .ok H)
    (hH : H ≠ maxInt64) :
    pollCycles env fuel (n + 1) (Poller.start s)
      = .done ⟨{ s with sent := s.sent ++ List.replicate (n + 1) .eth_blockNumber }, H⟩ :=
  pollCycles_failures_then_success env fuel H hH n s hfail hok

theorem first_successful_cycle_skips_backlog_witness :
    pollCycles ⟨scenarioNode, okHook⟩ 0 1 (Poller.start (freshSys [addrA]))
      = .done ⟨{ freshSys [addrA] with sent := [.eth_blockNumber] }, 100⟩ :=
  first_successful_cycle_skips_backlog ⟨scenarioNode, okHook⟩ 0 (freshSys [addrA]) 100 0
    (by intro k hk; omega) (by decide) (by decide)

/-- C6 fails for the largest `int64`: when the first height the node reports is
`0x7fffffffffffffff`, the loop counter `lastProcessedBlock + 1` wraps to the
smallest `int64`, the block loop starts there (three lookups for the subscriber in
that block) and its condition never becomes false, so the cycle does not complete
and the cursor is never set. -/
theorem first_cycle_at_maxInt64_never_completes :
    (Client.GetBlockNumber (constNode (.text (bytes "0x7fffffffffffffff"))) []).1
      = .ok maxInt64 ∧
    wrap64 (maxInt64 + 1) = minInt64 ∧
    ((processBlock ⟨constNode (.text (bytes "0x7fffffffffffffff")), okHook⟩ minInt64
        (freshSys [addrA])).result.map (fun s => lookupsMade s.trace))
      = some [(addrA, minInt64), (addrA, minInt64), (addrA, minInt64)] ∧
    ¬ ∃ fuel st, pollCycle ⟨constNode (.text (bytes "0x7fffffffffffffff")), okHook⟩ fuel
        (Poller.start (freshSys [addrA])) = .done st := by
  refine ⟨by decide, by decide, by decide, ?_⟩
  rintro ⟨fuel, st, h⟩
  have hq : (Client.GetBlockNumber (constNode (.text (bytes "0x7fffffffffffffff")))
      (freshSys [addrA]).sent).1 = .ok maxInt64 := by decide
  unfold pollCycle Poller.start at h
  simp only at h
  rw [GetBlockNumber_eq, hq] at h
  simp only [if_true] at h
  rw [blockLoop_diverges _ (noPanic_of_text _ _) fuel _ _ (wrap64_range _).2] at h
  simp at h

/-- C8: a cycle whose height query returns an error completes at once: it has sent
that one height query and nothing else, has recorded no step (no block processed, no
lookup, no store append, no notification), and the cursor, the store and the
registry are what they were. -/
theorem failed_height_query_skips_cycle (env : Env) (fuel : Nat) (st : Poller)
    (e : ClientError) (h : (Client.GetBlockNumber env.node st.sys.sent).1 = .error e) :
    ∃ st1, pollCycle env fuel st = .done st1 ∧
      st1.sys.sent = st.sys.sent ++ [.eth_blockNumber] ∧
      st1.sys.trace = st.sys.trace ∧
      st1.lastProcessedBlock = st.lastProcessedBlock ∧
      st1.sys.parser.storage = st.sys.parser.storage ∧
      st1.sys.parser.subscribers = st.sys.parser.subscribers :=
  ⟨_, pollCycle_error env fuel st e h, rfl, rfl, rfl, rfl, rfl⟩

theorem failed_height_query_skips_cycle_witness :
    ∃ st1, pollCycle ⟨constNode .failure, okHook⟩ 0 ⟨freshSys [addrA], 100⟩ = .done st1 ∧
      st1.sys.sent = (freshSys [addrA]).sent ++ [.eth_blockNumber] ∧
      st1.sys.trace = (freshSys [addrA]).trace ∧
      st1.lastProcessedBlock = 100 ∧
      st1.sys.parser.storage = (freshSys [addrA]).parser.storage ∧
      st1.sys.parser.subscribers = (freshSys [addrA]).parser.subscribers :=
  failed_height_query_skips_cycle ⟨constNode .failure, okHook⟩ 0 ⟨freshSys [addrA], 100⟩
    .request (by decide)

/-- C7 fails when the cursor is 0: on a chain whose height is 0 at the first
successful query and 3 at the next, the first cycle leaves the cursor at 0 and the
second processes none of the blocks 1, 2, 3 and sets the cursor to 3. -/
theorem cursor_zero_skips_blocks :
    ((pollCycles ⟨genesisNode, okHook⟩ 5 1 (Poller.start (freshSys [addrA]))).result.map
        (fun st => (blocksProcessed st.sys.trace, st.lastProcessedBlock))) = some ([], 0) ∧
    ((pollCycles ⟨genesisNode, okHook⟩ 5 2 (Poller.start (freshSys [addrA]))).result.map
        (fun st => (blocksProcessed st.sys.trace, st.lastProcessedBlock))) = some ([], 3) ∧
    (List.range ((3 : Int) - 0).toNat).map (fun (i : Nat) => (0 : Int) + 1 + (i : Int))
      = [1, 2, 3] := by
  decide

/-! ## The polling engine: the retry loop -/

theorem afterAttempts_trace (env : Env) (a : GoString) (b : Int) (k : Nat) :
    ∀ (s : Sys),
      (afterAttempts env a b k s).trace = s.trace ++ List.replicate k (.lookup a b) ∧
      (afterAttempts env a b k s).parser = s.parser := by
  induction k with
  | zero => intro s; simp [afterAttempts]
  | succ k ih =>
    intro s
    obtain ⟨h1, h2⟩ := ih (attempt env a b s).2
    refine ⟨?_, ?_⟩
    · rw [afterAttempts, h1]; simp [attempt, List.replicate_succ]
    · rw [afterAttempts, h2]; rfl

theorem retryLoop_first_success (env : Env) (a : GoString) (b : Int)
    (txs : List Transaction) (n : Nat) :
    ∀ (last : Outcome (List Transaction)) (s : Sys) (k : Nat), k < n →
      (∀ j, j < k → ∃ e, attemptResult env a b j s = .error e) →
      attemptResult env a b k s = .ok txs →
      retryLoop env a b n last s = (.ok txs, afterAttempts env a b (k + 1) s) := by
  induction n with
  | zero => intro last s k hk; omega
  | succ n ih =>
    intro last s k hk hfail hok
    cases k with
    | zero =>
      have h0 : (attempt env a b s).1 = .ok txs := hok
      unfold retryLoop
      split <;> rename_i heq <;> rw [heq] at h0 <;> simp only at h0
      · simp only [Outcome.ok.injEq] at h0
        subst h0
        simp only [afterAttempts, heq]
      · simp at h0
      · simp at h0
    | succ k =>
      obtain ⟨e, he⟩ := hfail 0 (by omega)
      have h0 : (attempt env a b s).1 = .error e := he
      have hrec := ih (.error e) (attempt env a b s).2 k (by omega)
        (fun j hj => hfail (j + 1) (by omega)) hok
      unfold retryLoop
      split <;> rename_i heq <;> rw [heq] at h0 <;> simp only at h0
      · simp at h0
      · simp only [Outcome.error.injEq] at h0
        subst h0
        rw [heq] at hrec
        simp only at hrec
        rw [hrec]
        simp only [afterAttempts, heq]
      · simp at h0

theorem retryLoop_all_fail (env : Env) (a : GoString) (b : Int) (n : Nat) :
    ∀ (e0 : ClientError) (s : Sys),
      (∀ j, j < n → ∃ e, attemptResult env a b j s = .error e) →
      ∃ e, retryLoop env a b n (.error e0) s = (.error e, afterAttempts env a b n s) := by
  induction n with
  | zero => intro e0 s _; exact ⟨e0, rfl⟩
  | succ n ih =>
    intro e0 s hfail
    obtain ⟨e, he⟩ := hfail 0 (by omega)
    have h0 : (attempt env a b s).1 = .error e := he
    obtain ⟨e2, hrec⟩ := ih e (attempt env a b s).2 (fun j hj => hfail (j + 1) (by omega))
    refine ⟨e2, ?_⟩
    unfold retryLoop
    split <;> rename_i heq <;> rw [heq] at h0 <;> simp only at h0
    · simp at h0
    · simp only [Outcome.error.injEq] at h0
      subst h0
      rw [heq] at hrec
      simp only at hrec
      rw [hrec]
      simp only [afterAttempts, heq]
    · simp at h0

theorem retryLoop_three_fail (env : Env) (a : GoString) (b : Int) (s : Sys)
    (hfail : ∀ j, j < 3 → ∃ e, attemptResult env a b j s = .error e) :
    ∃ e, retryLoop env a b 3 (.ok []) s = (.error e, afterAttempts env a b 3 s) := by
  obtain ⟨e, he⟩ := hfail 0 (by omega)
  have h0 : (attempt env a b s).1 = .error e := he
  obtain ⟨e2, hrec⟩ := retryLoop_all_fail env a b 2 e (attempt env a b s).2
    (fun j hj => hfail (j + 1) (by omega))
  refine ⟨e2, ?_⟩
  unfold retryLoop
  split <;> rename_i heq <;> rw [heq] at h0 <;> simp only at h0
  · simp at h0
  · simp only [Outcome.error.injEq] at h0
    subst h0
    rw [heq] at hrec
    simp only at hrec
    rw [hrec]
    simp only [afterAttempts, heq]
  · simp at h0

theorem processAddresses_append (env : Env) (b : Int) (l1 l2 : List GoString) :
    ∀ (s0 s : Sys), processAddresses env b l1 s0 = .done s →
      processAddresses env b (l1 ++ l2) s0 = processAddresses env b l2 s := by
  induction l1 with
  | nil =>
    intro s0 s h
    simp only [processAddresses, Exec.done.injEq] at h
    subst h
    rfl
  | cons a rest ih =>
    intro s0 s h
    rw [List.cons_append, processAddresses]
    rw [processAddresses] at h
    split at h
    · simp at h
    · exact ih _ s h
    · exact ih _ s h

/-- C9 fails in its last part: with heights 100, 101, 100, 101 and every lookup
failing, block 101 is looked up three times in the second cycle, which ends with the
cursor at 101, and three more times in the fourth cycle. -/
theorem failed_block_looked_up_again :
    ((pollCycles ⟨wobblingNode, okHook⟩ 2 2 (Poller.start (freshSys [addrA]))).result.map
        (fun st => (lookupsMade st.sys.trace, st.lastProcessedBlock)))
      = some (List.replicate 3 (addrA, 101), 101) ∧
    ((pollCycles ⟨wobblingNode, okHook⟩ 2 4 (Poller.start (freshSys [addrA]))).result.map
        (fun st => (lookupsMade st.sys.trace, st.lastProcessedBlock)))
      = some (List.replicate 6 (addrA, 101), 101) := by
  decide

/-- C10 as amended: for a subscribed address that fails validation, `processBlock`
calls `GetTransactionsForAddress(a, b)` three times, each call returning the
invalid-address error without a request to the node; nothing is stored or notified
and the loop goes on with the next address. -/
theorem invalid_address_looked_up_three_times (env : Env) (a : GoString) (b : Int) (s : Sys)
    (h : isValidEthereumAddress a = false) :
    retryLoop env a b 3 (.ok []) s
      = (.error .invalidAddress,
          { s with trace := s.trace ++ [.lookup a b, .lookup a b, .lookup a b] }) ∧
    (∀ rest, processAddresses env b (a :: rest) s
      = processAddresses env b rest
          { s with trace := s.trace ++ [.lookup a b, .lookup a b, .lookup a b] }) := by
  have hr : retryLoop env a b 3 (.ok []) s
      = (.error .invalidAddress,
          { s with trace := s.trace ++ [.lookup a b, .lookup a b, .lookup a b] }) := by
    simp [retryLoop, attempt, Client.GetTransactionsForAddress, h]
  refine ⟨hr, ?_⟩
  intro rest
  conv_lhs => unfold processAddresses
  rw [hr]

theorem invalid_address_looked_up_three_times_witness :
    retryLoop ⟨constNode .failure, okHook⟩ (bytes "abc") 7 3 (.ok []) (freshSys [bytes "abc"])
      = (.error .invalidAddress,
          { freshSys [bytes "abc"] with
            trace := (freshSys [bytes "abc"]).trace
              ++ [.lookup (bytes "abc") 7, .lookup (bytes "abc") 7, .lookup (bytes "abc") 7] }) :=
  (invalid_address_looked_up_three_times ⟨constNode .failure, okHook⟩ (bytes "abc") 7
    (freshSys [bytes "abc"]) (by decide)).1

/-- C10 fails: for the subscribed string `abc`, which is not a valid address,
`processBlock` makes three calls `GetTransactionsForAddress("abc", 7)`, not one, and
sends no request. -/
theorem invalid_address_is_retried :
    isValidEthereumAddress (bytes "abc") = false ∧
    ((processBlock ⟨constNode .failure, okHook⟩ 7 (freshSys [bytes "abc"])).result.map
        (fun s => (lookupsMade s.trace, s.sent)))
      = some ([(bytes "abc", 7), (bytes "abc", 7), (bytes "abc", 7)], []) := by
  decide

/-! ## Storing and notifying -/

theorem storeAndNotify_storage (env : Env) (a : GoString) (txs : List Transaction) :
    ∀ (s : Sys) (x : GoString),
      (storeAndNotify env a txs s).parser.storage.transactions x
        = if x = a then s.parser.storage.transactions a ++ txs
          else s.parser.storage.transactions x := by
  induction txs with
  | nil => intro s x; by_cases h : x = a <;> simp [storeAndNotify, h]
  | cons tx rest ih =>
    intro s x
    rw [storeAndNotify, ih]
    by_cases h : x = a
    · simp [h, notifyTransaction, MemoryStorage.StoreTransaction]
    · simp [h, notifyTransaction, MemoryStorage.StoreTransaction, Function.update_noteq h]

theorem storeAndNotify_steps (env : Env) (a : GoString) (txs : List Transaction) :
    ∀ (s : Sys), ∃ ds : List Bool, ds.length = txs.length ∧
      (storeAndNotify env a txs s).trace = s.trace ++ storeSteps a txs ds := by
  induction txs with
  | nil => intro s; exact ⟨[], rfl, by simp [storeAndNotify, storeSteps]⟩
  | cons tx rest ih =>
    intro s
    obtain ⟨ds, h1, h2⟩ := ih (notifyTransaction env tx a
      { s with
        parser := { s.parser with storage := s.parser.storage.StoreTransaction a tx }
        trace := s.trace ++ [.store a tx] })
    refine ⟨env.hook (s.trace ++ [.store a tx]) a tx :: ds, by simp [h1], ?_⟩
    rw [storeAndNotify, h2]
    simp [notifyTransaction, storeSteps]

theorem storeAndNotify_fixed (env : Env) (a : GoString) (txs : List Transaction) :
    ∀ (s : Sys),
      (storeAndNotify env a txs s).sent = s.sent ∧
      (storeAndNotify env a txs s).parser.subscribers = s.parser.subscribers := by
  induction txs with
  | nil => intro s; exact ⟨rfl, rfl⟩
  | cons tx rest ih =>
    intro s
    rw [storeAndNotify]
    obtain ⟨h1, h2⟩ := ih (notifyTransaction env tx a
      { s with
        parser := { s.parser with storage := s.parser.storage.StoreTransaction a tx }
        trace := s.trace ++ [.store a tx] })
    exact ⟨h1, h2⟩

/-! ## What does not depend on the webhook -/

theorem forget_forget (e : Event) : e.forget.forget = e.forget := by
  cases e <;> rfl

theorem storeAndNotify_forget (node : Node) (h1 h2 : Webhook) (a : GoString)
    (txs : List Transaction) :
    ∀ (s1 s2 : Sys), s1.forget = s2.forget →
      (storeAndNotify ⟨node, h1⟩ a txs s1).forget = (storeAndNotify ⟨node, h2⟩ a txs s2).forget := by
  induction txs with
  | nil => intro s1 s2 h; simpa [storeAndNotify] using h
  | cons tx rest ih =>
    intro s1 s2 h
    rw [storeAndNotify, storeAndNotify]
    apply ih
    simp only [Sys.forget, Sys.mk.injEq] at h ⊢
    obtain ⟨hp, hs, ht⟩ := h
    refine ⟨?_, hs, ?_⟩
    · simp [notifyTransaction, hp]
    · simp [notifyTransaction, ht, Event.forget]

theorem attempt_forget (node : Node) (h1 h2 : Webhook) (a : GoString) (b : Int)
    (s1 s2 : Sys) (h : s1.forget = s2.forget) :
    (attempt ⟨node, h1⟩ a b s1).1 = (attempt ⟨node, h2⟩ a b s2).1 ∧
    (attempt ⟨node, h1⟩ a b s1).2.forget = (attempt ⟨node, h2⟩ a b s2).2.forget := by
  simp only [Sys.forget, Sys.mk.injEq] at h
  obtain ⟨hp, hs, ht⟩ := h
  simp [attempt, Sys.forget, hp, hs, ht]

theorem retryLoop_forget (node : Node) (h1 h2 : Webhook) (a : GoString) (b : Int) (n : Nat) :
    ∀ (last : Outcome (List Transaction)) (s1 s2 : Sys), s1.forget = s2.forget →
      (retryLoop ⟨node, h1⟩ a b n last s1).1 = (retryLoop ⟨node, h2⟩ a b n last s2).1 ∧
      (retryLoop ⟨node, h1⟩ a b n last s1).2.forget
        = (retryLoop ⟨node, h2⟩ a b n last s2).2.forget := by
  induction n with
  | zero => intro last s1 s2 h; exact ⟨rfl, h⟩
  | succ n ih =>
    intro last s1 s2 h
    obtain ⟨g1, g2⟩ := attempt_forget node h1 h2 a b s1 s2 h
    rw [retryLoop, retryLoop]
    cases hr1 : attempt ⟨node, h1⟩ a b s1 with
    | mk r1 t1 =>
      cases hr2 : attempt ⟨node, h2⟩ a b s2 with
      | mk r2 t2 =>
        rw [hr1, hr2] at g1 g2
        simp only at g1 g2
        subst g1
        cases r1 with
        | ok txs => exact ⟨rfl, g2⟩
        | panicked => exact ⟨rfl, g2⟩
        | error e => exact ih _ t1 t2 g2

theorem processAddresses_forget (node : Node) (h1 h2 : Webhook) (b : Int)
    (addrs : List GoString) :
    ∀ (s1 s2 : Sys), s1.forget = s2.forget →
      (processAddresses ⟨node, h1⟩ b addrs s1).map Sys.forget
        = (processAddresses ⟨node, h2⟩ b addrs s2).map Sys.forget := by
  induction addrs with
  | nil => intro s1 s2 h; simpa [processAddresses, Exec.map] using h
  | cons a rest ih =>
    intro s1 s2 h
    obtain ⟨g1, g2⟩ := retryLoop_forget node h1 h2 a b 3 (.ok []) s1 s2 h
    rw [processAddresses, processAddresses]
    cases hr1 : retryLoop ⟨node, h1⟩ a b 3 (.ok []) s1 with
    | mk r1 t1 =>
      cases hr2 : retryLoop ⟨node, h2⟩ a b 3 (.ok []) s2 with
      | mk r2 t2 =>
        rw [hr1, hr2] at g1 g2
        simp only at g1 g2
        subst g1
        cases r1 with
        | panicked => rfl
        | error e => exact ih t1 t2 g2
        | ok txs => exact ih _ _ (storeAndNotify_forget node h1 h2 a txs t1 t2 g2)

theorem processBlock_forget (node : Node) (h1 h2 : Webhook) (b : Int) (s : Sys) :
    (processBlock ⟨node, h1⟩ b s).map Sys.forget = (processBlock ⟨node, h2⟩ b s).map Sys.forget := by
  unfold processBlock
  exact processAddresses_forget node h1 h2 b _ _ _ rfl

theorem lookupsMade_map_forget (tr : List Event) :
    lookupsMade (tr.map Event.forget) = lookupsMade tr := by
  induction tr with
  | nil => rfl
  | cons e rest ih =>
    cases e <;> simp_all [lookupsMade, Event.forget]

/-! ## Runs of several cycles -/

theorem interval_append (lo mid hi : Int) (h1 : lo ≤ mid + 1) (h2 : mid ≤ hi) :
    interval lo mid ++ interval (mid + 1) hi = interval lo hi := by
  unfold interval
  have e : (hi + 1 - lo).toNat = (mid + 1 - lo).toNat + (hi + 1 - (mid + 1)).toNat := by omega
  rw [e, List.range_add, List.map_append, List.map_map]
  congr 1
  apply List.map_congr_left
  intro i _
  show mid + 1 + (i : Int) = lo + (((mid + 1 - lo).toNat + i : Nat) : Int)
  omega

theorem interval_empty (lo hi : Int) (h : hi < lo) : interval lo hi = [] := by
  unfold interval
  have e : (hi + 1 - lo).toNat = 0 := by omega
  rw [e]; rfl

theorem mem_interval (lo hi b : Int) : b ∈ interval lo hi ↔ lo ≤ b ∧ b ≤ hi := by
  unfold interval
  simp only [List.mem_map, List.mem_range]
  constructor
  · rintro ⟨i, hi1, rfl⟩
    omega
  · rintro ⟨h1, h2⟩
    exact ⟨(b - lo).toNat, by omega, by omega⟩

theorem nodup_interval (lo hi : Int) : (interval lo hi).Nodup := by
  unfold interval
  apply List.Nodup.map _ (List.nodup_range _)
  intro i j hij
  simp only at hij
  omega

theorem count_interval (lo hi b : Int) :
    (interval lo hi).count b = if lo ≤ b ∧ b ≤ hi then 1 else 0 := by
  by_cases h : lo ≤ b ∧ b ≤ hi
  · rw [if_pos h]
    exact List.count_eq_one_of_mem (nodup_interval lo hi) ((mem_interval lo hi b).2 h)
  · rw [if_neg h]
    exact List.count_eq_zero_of_not_mem (fun hm => h ((mem_interval lo hi b).1 hm))

theorem getLastD_ge (hs : List Int) :
    ∀ (c : Int), List.Chain (fun x y => x ≤ y) c hs → c ≤ hs.getLastD c := by
  induction hs with
  | nil => intro c _; simp
  | cons H rest ih =>
    intro c hc
    rw [List.chain_cons] at hc
    rw [List.getLastD_cons]
    exact le_trans hc.1 (ih H hc.2)

theorem expectedBlocks_sorted (hs : List Int) :
    ∀ (c : Int), c ≠ 0 → List.Chain (fun x y => x ≤ y) c hs → (∀ H ∈ hs, 0 < H) →
      expectedBlocks c hs = interval (c + 1) (hs.getLastD c) := by
  induction hs with
  | nil =>
    intro c _ _ _
    simp only [expectedBlocks, List.getLastD_nil]
    exact (interval_empty _ _ (by omega)).symm
  | cons H rest ih =>
    intro c hc hch hpos
    rw [List.chain_cons] at hch
    have hH : 0 < H := hpos H (List.mem_cons_self _ _)
    rw [expectedBlocks, if_neg hc, List.getLastD_cons,
      ih H (by omega) hch.2 (fun x hx => hpos x (List.mem_cons_of_mem _ hx))]
    exact interval_append (c + 1) H _ (by omega) (getLastD_ge rest H hch.2)

/-- C11 fails on both counts.  With heights 100, 101, 100, 101 the cursor goes
100, 101, 100, 101, so it decreases after the second cycle, and block 101 is passed
to `processBlock` twice.  With heights 0 then 3 the cursor goes 0, 3 and none of the
blocks 1, 2, 3 is processed. -/
theorem cursor_decreases_and_blocks_repeat :
    observedHeights ⟨wobblingNode, okHook⟩ 2 4 (Poller.start (freshSys [addrA]))
      = [100, 101, 100, 101] ∧
    cursors ⟨wobblingNode, okHook⟩ 2 4 (Poller.start (freshSys [addrA]))
      = [100, 101, 100, 101] ∧
    ((pollCycles ⟨wobblingNode, okHook⟩ 2 4 (Poller.start (freshSys [addrA]))).result.map
        (fun st => blocksProcessed st.sys.trace)) = some [101, 101] ∧
    observedHeights ⟨genesisNode, okHook⟩ 5 2 (Poller.start (freshSys [addrA])) = [0, 3] ∧
    cursors ⟨genesisNode, okHook⟩ 5 2 (Poller.start (freshSys [addrA])) = [0, 3] ∧
    ((pollCycles ⟨genesisNode, okHook⟩ 5 2 (Poller.start (freshSys [addrA]))).result.map
        (fun st => blocksProcessed st.sys.trace)) = some [] := by
  decide

/-! ## What one block adds to the trace, for a run that completes -/

theorem appendsMade_append (l1 l2 : List Event) :
    appendsMade (l1 ++ l2) = appendsMade l1 ++ appendsMade l2 := by
  simp [appendsMade, List.filterMap_append]

theorem notificationsMade_append (l1 l2 : List Event) :
    notificationsMade (l1 ++ l2) = notificationsMade l1 ++ notificationsMade l2 := by
  simp [notificationsMade, List.filterMap_append]

theorem appendsMade_replicate_lookup (k : Nat) (a : GoString) (b : Int) :
    appendsMade (List.replicate k (.lookup a b)) = [] := by
  induction k with
  | zero => rfl
  | succ k ih => simp [List.replicate_succ, appendsMade]

theorem notificationsMade_replicate_lookup (k : Nat) (a : GoString) (b : Int) :
    notificationsMade (List.replicate k (.lookup a b)) = [] := by
  induction k with
  | zero => rfl
  | succ k ih => simp [List.replicate_succ, notificationsMade]

theorem storeSteps_views (a : GoString) (txs : List Transaction) :
    ∀ (ds : List Bool), ds.length = txs.length →
      blocksProcessed (storeSteps a txs ds) = [] ∧
      lookupsMade (storeSteps a txs ds) = [] ∧
      appendsMade (storeSteps a txs ds) = txs.map (fun t => (a, t)) ∧
      notificationsMade (storeSteps a txs ds) = txs.map (fun t => (a, t)) := by
  induction txs with
  | nil => intro ds _; cases ds <;> exact ⟨rfl, rfl, rfl, rfl⟩
  | cons tx rest ih =>
    intro ds hds
    cases ds with
    | nil => simp at hds
    | cons d ds =>
      obtain ⟨h1, h2, h3, h4⟩ := ih ds (by simpa using hds)
      refine ⟨?_, ?_, ?_, ?_⟩
      · simpa [storeSteps, blocksProcessed] using h1
      · simpa [storeSteps, lookupsMade] using h2
      · simpa [storeSteps, appendsMade] using h3
      · simpa [storeSteps, notificationsMade] using h4

theorem retryLoop_calls (env : Env) (a : GoString) (b : Int) (n : Nat) :
    ∀ (last : Outcome (List Transaction)) (s : Sys),
      ∃ k, 1 ≤ k ∧ k ≤ n + 1 ∧
        (retryLoop env a b (n + 1) last s).2.trace = s.trace ++ List.replicate k (.lookup a b) ∧
        (retryLoop env a b (n + 1) last s).2.parser = s.parser := by
  intro last s
  unfold retryLoop
  cases hr : (Client.GetTransactionsForAddress env.node a b s.sent).1 with
  | ok txs => refine ⟨1, by omega, by omega, ?_, ?_⟩ <;> simp [attempt, hr]
  | panicked => refine ⟨1, by omega, by omega, ?_, ?_⟩ <;> simp [attempt, hr]
  | error e =>
    simp only [attempt, hr]
    obtain ⟨k, hk, h1, h2⟩ := retryLoop_trace env a b n (.error e)
      { s with sent := (Client.GetTransactionsForAddress env.node a b s.sent).2,
               trace := s.trace ++ [.lookup a b] }
    refine ⟨k + 1, by omega, by omega, ?_, ?_⟩
    · rw [h1]; simp [List.replicate_succ]
    · rw [h2]

theorem count_replicate_pair (k : Nat) (a x : GoString) (b : Int) :
    (List.replicate k (a, b)).count (x, b) = if x = a then k else 0 := by
  by_cases h : x = a
  · subst h; simp
  · rw [if_neg h]
    apply List.count_eq_zero_of_not_mem
    intro hm
    have := List.eq_of_mem_replicate hm
    simp only [Prod.mk.injEq, and_true] at this
    exact h this

theorem count_cons_address (a x : GoString) (rest : List GoString) :
    (a :: rest).count x = rest.count x + if x = a then 1 else 0 := by
  by_cases h : x = a
  · subst h; simp
  · have h2 : a ≠ x := fun e => h e.symm
    simp [List.count_cons, h, h2]

theorem processAddresses_ne_outOfFuel (env : Env) (b : Int) (addrs : List GoString) :
    ∀ (s : Sys), processAddresses env b addrs s ≠ .outOfFuel := by
  induction addrs with
  | nil => intro s; simp [processAddresses]
  | cons a rest ih =>
    intro s
    rw [processAddresses]
    split
    · simp
    · exact ih _
    · exact ih _

theorem processAddresses_steps (env : Env) (b : Int) (addrs : List GoString) :
    ∀ (s s1 : Sys), processAddresses env b addrs s = .done s1 →
      ∃ ext,
        s1.trace = s.trace ++ ext ∧
        s1.parser.subscribers = s.parser.subscribers ∧
        blocksProcessed ext = [] ∧
        (∀ p ∈ lookupsMade ext, p.2 = b) ∧
        (∀ x, addrs.count x ≤ (lookupsMade ext).count (x, b) ∧
          (lookupsMade ext).count (x, b) ≤ 3 * addrs.count x) ∧
        (∀ p ∈ appendsMade ext, p.1 ∈ addrs) ∧
        (∀ p ∈ notificationsMade ext, p.1 ∈ addrs) ∧
        (∀ x, x ∉ addrs → s1.parser.storage.transactions x = s.parser.storage.transactions x) := by
  induction addrs with
  | nil =>
    intro s s1 h
    simp only [processAddresses, Exec.done.injEq] at h
    subst h
    exact ⟨[], by simp, rfl, rfl, by simp [lookupsMade], by simp [lookupsMade],
      by simp [appendsMade], by simp [notificationsMade], fun _ _ => rfl⟩
  | cons a rest ih =>
    intro s s1 h
    obtain ⟨k, hk1, hk3, ht, hp⟩ := retryLoop_calls env a b 2 (.ok []) s
    rw [processAddresses] at h
    cases hr : retryLoop env a b 3 (.ok []) s with
    | mk r s2 =>
      rw [hr] at h ht hp
      simp only at h ht hp
      cases r with
      | panicked => simp at h
      | error e =>
        simp only at h
        obtain ⟨ext, q1, q2, q3, q4, q5, q6, q7, q8⟩ := ih s2 s1 h
        refine ⟨List.replicate k (.lookup a b) ++ ext, ?_, ?_, ?_, ?_, ?_, ?_, ?_, ?_⟩
        · rw [q1, ht, List.append_assoc]
        · rw [q2, hp]
        · rw [blocksProcessed_append, q3, blocksProcessed_replicate_lookup]; rfl
        · intro p hpm
          rw [lookupsMade_append, lookupsMade_replicate_lookup, List.mem_append] at hpm
          rcases hpm with hpm | hpm
          · rw [List.eq_of_mem_replicate hpm]
          · exact q4 p hpm
        · intro x
          rw [lookupsMade_append, lookupsMade_replicate_lookup, List.count_append,
            count_replicate_pair, count_cons_address]
          have := q5 x
          split <;> omega
        · intro p hpm
          rw [appendsMade_append, appendsMade_replicate_lookup, List.nil_append] at hpm
          exact List.mem_cons_of_mem _ (q6 p hpm)
        · intro p hpm
          rw [notificationsMade_append, notificationsMade_replicate_lookup,
            List.nil_append] at hpm
          exact List.mem_cons_of_mem _ (q7 p hpm)
        · intro x hx
          rw [q8 x (fun hm => hx (List.mem_cons_of_mem _ hm)), hp]
      | ok txs =>
        simp only at h
        obtain ⟨ds, hds, g1⟩ := storeAndNotify_steps env a txs s2
        obtain ⟨g2, g3⟩ := storeAndNotify_fixed env a txs s2
        obtain ⟨v1, v2, v3, v4⟩ := storeSteps_views a txs ds hds
        obtain ⟨ext, q1, q2, q3, q4, q5, q6, q7, q8⟩ := ih (storeAndNotify env a txs s2) s1 h
        refine ⟨List.replicate k (.lookup a b) ++ (storeSteps a txs ds ++ ext),
          ?_, ?_, ?_, ?_, ?_, ?_, ?_, ?_⟩
        · rw [q1, g1, ht]; simp only [List.append_assoc]
        · rw [q2, g3, hp]
        · rw [blocksProcessed_append, blocksProcessed_append, q3, v1,
            blocksProcessed_replicate_lookup]; rfl
        · intro p hpm
          rw [lookupsMade_append, lookupsMade_append, lookupsMade_replicate_lookup, v2,
            List.nil_append, List.mem_append] at hpm
          rcases hpm with hpm | hpm
          · rw [List.eq_of_mem_replicate hpm]
          · exact q4 p hpm
        · intro x
          rw [lookupsMade_append, lookupsMade_append, lookupsMade_replicate_lookup, v2,
            List.nil_append, List.count_append, count_replicate_pair, count_cons_address]
          have := q5 x
          split <;> omega
        · intro p hpm
          rw [appendsMade_append, appendsMade_append, appendsMade_replicate_lookup, v3,
            List.nil_append, List.mem_append] at hpm
          rcases hpm with hpm | hpm
          · obtain ⟨t, _, rfl⟩ := List.mem_map.1 hpm
            exact List.mem_cons_self _ _
          · exact List.mem_cons_of_mem _ (q6 p hpm)
        · intro p hpm
          rw [notificationsMade_append, notificationsMade_append,
            notificationsMade_replicate_lookup, v4, List.nil_append, List.mem_append] at hpm
          rcases hpm with hpm | hpm
          · obtain ⟨t, _, rfl⟩ := List.mem_map.1 hpm
            exact List.mem_cons_self _ _
          · exact List.mem_cons_of_mem _ (q7 p hpm)
        · intro x hx
          have hxa : x ≠ a := fun e => hx (e ▸ List.mem_cons_self _ _)
          rw [q8 x (fun hm => hx (List.mem_cons_of_mem _ hm)), storeAndNotify_storage,
            if_neg hxa, hp]

theorem processBlock_ne_outOfFuel (env : Env) (b : Int) (s : Sys) :
    processBlock env b s ≠ .outOfFuel :=
  processAddresses_ne_outOfFuel env b _ _

theorem processBlock_steps (env : Env) (b : Int) (s s1 : Sys)
    (h : processBlock env b s = .done s1) :
    ∃ new,
      s1.trace = s.trace ++ .processBlock b :: new ∧
      s1.parser.subscribers = s.parser.subscribers ∧
      blocksProcessed new = [] ∧
      (∀ p ∈ lookupsMade new, p.2 = b) ∧
      (∀ x, s.parser.subscribers.count x ≤ (lookupsMade new).count (x, b) ∧
        (lookupsMade new).count (x, b) ≤ 3 * s.parser.subscribers.count x) ∧
      (∀ p ∈ appendsMade new, p.1 ∈ s.parser.subscribers) ∧
      (∀ p ∈ notificationsMade new, p.1 ∈ s.parser.subscribers) ∧
      (∀ x, x ∉ s.parser.subscribers →
        s1.parser.storage.transactions x = s.parser.storage.transactions x) := by
  obtain ⟨ext, q1, q2, q3, q4, q5, q6, q7, q8⟩ :=
    processAddresses_steps env b s.parser.subscribers _ s1 h
  refine ⟨ext, ?_, q2, q3, q4, q5, q6, q7, q8⟩
  rw [q1]; simp

theorem blocksProcessed_cons_processBlock (b : Int) (new : List Event) :
    blocksProcessed (.processBlock b :: new) = b :: blocksProcessed new := by
  simp [blocksProcessed]

theorem lookupsMade_cons_processBlock (b : Int) (new : List Event) :
    lookupsMade (.processBlock b :: new) = lookupsMade new := by
  simp [lookupsMade]

theorem interval_cons (lo hi : Int) (h : lo ≤ hi) :
    interval lo hi = lo :: interval (lo + 1) hi := by
  unfold interval
  have e : (hi + 1 - lo).toNat = (hi + 1 - (lo + 1)).toNat + 1 := by omega
  rw [e, range_succ_map_add]

theorem blockLoop_steps (env : Env) (H : Int) (hH : H < maxInt64) :
    ∀ (fuel : Nat) (b0 : Int) (s : Sys), minInt64 ≤ b0 → (H + 1 - b0).toNat ≤ fuel →
      (blockLoop env H fuel b0 s).panics = false →
      ∃ s1 ext,
        blockLoop env H fuel b0 s = .done s1 ∧
        s1.trace = s.trace ++ ext ∧
        s1.parser.subscribers = s.parser.subscribers ∧
        blocksProcessed ext = interval b0 H ∧
        (∀ p ∈ lookupsMade ext, b0 ≤ p.2 ∧ p.2 ≤ H) := by
  intro fuel
  induction fuel with
  | zero =>
    intro b0 s _ hf _
    have hlt : H < b0 := by omega
    refine ⟨s, [], blockLoop_past env H 0 b0 s hlt, by simp, rfl, ?_, ?_⟩
    · rw [interval_empty _ _ hlt]; rfl
    · intro p hp; simp [lookupsMade] at hp
  | succ f ih =>
    intro b0 s hb0 hf hnp
    by_cases hb : b0 ≤ H
    · have hw : wrap64 (b0 + 1) = b0 + 1 := by
        apply wrap64_id <;> unfold minInt64 maxInt64 at * <;> omega
      cases hp : processBlock env b0 s with
      | outOfFuel => exact absurd hp (processBlock_ne_outOfFuel env b0 s)
      | panicked =>
        simp [blockLoop, hb, hp, Exec.panics] at hnp
      | done s1 =>
        have hstep : blockLoop env H (f + 1) b0 s = blockLoop env H f (b0 + 1) s1 := by
          simp only [blockLoop, hb, if_true, hp, hw]
        rw [hstep] at hnp ⊢
        obtain ⟨new, p1, p2, p3, p4, _⟩ := processBlock_steps env b0 s s1 hp
        obtain ⟨s2, ext2, q1, q2, q3, q4, q5⟩ := ih (b0 + 1) s1
          (by unfold minInt64 at *; omega) (by omega) hnp
        refine ⟨s2, (.processBlock b0 :: new) ++ ext2, q1, ?_, ?_, ?_, ?_⟩
        · rw [q2, p1, List.append_assoc]
        · rw [q3, p2]
        · rw [blocksProcessed_append, blocksProcessed_cons_processBlock, p3, q4,
            interval_cons b0 H hb]; rfl
        · intro p hpm
          rw [lookupsMade_append, lookupsMade_cons_processBlock, List.mem_append] at hpm
          rcases hpm with hpm | hpm
          · have := p4 p hpm
            omega
          · have := q5 p hpm
            omega
    · have hlt : H < b0 := by omega
      refine ⟨s, [], blockLoop_past env H _ b0 s hlt, by simp, rfl, ?_, ?_⟩
      · rw [interval_empty _ _ hlt]; rfl
      · intro p hp; simp [lookupsMade] at hp

theorem pollCycle_steps (env : Env) (fuel : Nat) (s : Sys) (c H : Int)
    (hc1 : minInt64 ≤ c) (hc2 : c < maxInt64) (hH : H < maxInt64)
    (h : (Client.GetBlockNumber env.node s.sent).1 = .ok H)
    (hf : (H - c).toNat ≤ fuel)
    (hnp : (pollCycle env fuel ⟨s, c⟩).panics = false) :
    ∃ s1 ext,
      pollCycle env fuel ⟨s, c⟩ = .done ⟨s1, H⟩ ∧
      s1.trace = s.trace ++ ext ∧
      s1.parser.subscribers = s.parser.subscribers ∧
      blocksProcessed ext = (if c = 0 then [] else interval (c + 1) H) ∧
      (∀ p ∈ lookupsMade ext, c < p.2 ∧ p.2 ≤ H) := by
  by_cases hc0 : c = 0
  · subst hc0
    refine ⟨_, [], pollCycle_first env fuel s H h (ne_of_lt hH), by simp, rfl, rfl, ?_⟩
    intro p hp; simp [lookupsMade] at hp
  · have hw : wrap64 (c + 1) = c + 1 := by
      apply wrap64_id <;> unfold minInt64 maxInt64 at * <;> omega
    have hstep : pollCycle env fuel ⟨s, c⟩
        = match blockLoop env H fuel (c + 1) { s with sent := s.sent ++ [.eth_blockNumber] } with
          | .done s1 => .done ⟨s1, H⟩
          | .panicked => .panicked
          | .outOfFuel => .outOfFuel := by
      unfold pollCycle
      rw [GetBlockNumber_eq, h]
      simp only [hc0, if_false, hw]
    have hnp2 : (blockLoop env H fuel (c + 1)
        { s with sent := s.sent ++ [.eth_blockNumber] }).panics = false := by
      rw [hstep] at hnp
      cases hb : blockLoop env H fuel (c + 1) { s with sent := s.sent ++ [.eth_blockNumber] } with
      | done _ => rfl
      | outOfFuel => rfl
      | panicked => rw [hb] at hnp; simp [Exec.panics] at hnp
    obtain ⟨s1, ext, q1, q2, q3, q4, q5⟩ := blockLoop_steps env H hH fuel (c + 1)
      { s with sent := s.sent ++ [.eth_blockNumber] }
      (by unfold minInt64 at *; omega) (by have e : H + 1 - (c + 1) = H - c := by omega
                                           rw [e]; exact hf) hnp2
    refine ⟨s1, ext, ?_, q2, q3, ?_, ?_⟩
    · rw [hstep, q1]
    · rw [q4, if_neg hc0]
    · intro p hp
      have := q5 p hp
      omega

theorem exec_done_of_not_panics {α : Type} (r : Exec α) (d : α) (h1 : r.panics = false)
    (h2 : r ≠ .outOfFuel) : r = .done (r.getD d) := by
  cases r with
  | done a => rfl
  | panicked => simp [Exec.panics] at h1
  | outOfFuel => exact absurd rfl h2

theorem beforeTurn_done (env : Env) (b : Int) (pre : List GoString) (s : Sys)
    (h : (beforeTurn env b pre s).panics = false) :
    beforeTurn env b pre s = .done ((beforeTurn env b pre s).getD s) :=
  exec_done_of_not_panics _ s h (processAddresses_ne_outOfFuel env b pre _)

theorem processBlock_at_turn (env : Env) (a : GoString) (b : Int) (s sa : Sys)
    (pre post : List GoString) (hsub : s.parser.subscribers = pre ++ a :: post)
    (hsa : beforeTurn env b pre s = .done sa) :
    processBlock env b s = processAddresses env b (a :: post) sa := by
  unfold processBlock
  rw [hsub]
  exact processAddresses_append env b pre (a :: post) _ sa hsa

/-! ## Claims about the polling engine, for runs in which no call panics -/

/-- C7 as amended: when the cursor `c` at the start of a cycle is not 0 and the
height query returns `H`, both below the largest `int64`, and no lookup of the cycle
panics, the cycle completes with the cursor at `H`, whether lookups succeed or
return errors, having called `processBlock` for `c+1, ..., H` once each in
increasing order (for no block when `H ≤ c`).  When the cursor is 0 the cycle is
treated as a first one: no block is processed and the cursor becomes `H`.  With
heights 100 then 103 and one matching transaction in blocks 101 and 103, two
transactions are stored and the blocks fetched are 101, 102, 103. -/
theorem later_cycle_processes_new_blocks (env : Env) (fuel : Nat)
    (s : Sys) (c H : Int) (hc1 : minInt64 ≤ c) (hc2 : c < maxInt64) (hH : H < maxInt64)
    (h : (Client.GetBlockNumber env.node s.sent).1 = .ok H)
    (hf : (H - c).toNat ≤ fuel)
    (hnp : (pollCycle env fuel ⟨s, c⟩).panics = false) :
    (c ≠ 0 → ∃ s1 ext,
      pollCycle env fuel ⟨s, c⟩ = .done ⟨s1, H⟩ ∧
      s1.trace = s.trace ++ ext ∧
      blocksProcessed ext = interval (c + 1) H ∧
      (∀ b, (blocksProcessed ext).count b = if c < b ∧ b ≤ H then 1 else 0) ∧
      (H ≤ c → blocksProcessed ext = [])) ∧
    (c = 0 →
      pollCycle env fuel ⟨s, c⟩ = .done ⟨{ s with sent := s.sent ++ [.eth_blockNumber] }, H⟩) ∧
    ((pollCycles ⟨scenarioNode, okHook⟩ 3 2 (Poller.start (freshSys [addrA]))).result.map
        (fun st => (((st.sys.parser.GetTransactions addrA).1.map (fun t => t.Hash)),
          blocksFetched st.sys.sent, blocksProcessed st.sys.trace, st.lastProcessedBlock)))
      = some ([bytes "0xh1", bytes "0xh3"], [101, 102, 103], [101, 102, 103], 103) := by
  refine ⟨?_, ?_, by decide⟩
  · intro hc0
    obtain ⟨s1, ext, q1, q2, _, q4, _⟩ := pollCycle_steps env fuel s c H hc1 hc2 hH h hf hnp
    rw [if_neg hc0] at q4
    refine ⟨s1, ext, q1, q2, q4, ?_, ?_⟩
    · intro b
      rw [q4, count_interval]
      have e : (c + 1 ≤ b ∧ b ≤ H) ↔ (c < b ∧ b ≤ H) := by
        constructor <;> rintro ⟨h1, h2⟩ <;> exact ⟨by omega, h2⟩
      simp only [e]
    · intro hle
      rw [q4, interval_empty _ _ (by omega)]
  · intro hc0
    subst hc0
    exact pollCycle_first env fuel s H h (ne_of_lt hH)

theorem later_cycle_processes_new_blocks_witness :
    (Client.GetTransactionsForAddress timestamplessNode addrB 102 []).1 = .panicked ∧
    ∃ s1 ext,
      pollCycle ⟨timestamplessNode, okHook⟩ 3
          ⟨{ freshSys [addrA] with sent := [.eth_blockNumber] }, 100⟩ = .done ⟨s1, 103⟩ ∧
      s1.trace = [] ++ ext ∧
      blocksProcessed ext = interval (100 + 1) 103 ∧
      (∀ b, (blocksProcessed ext).count b = if 100 < b ∧ b ≤ 103 then 1 else 0) ∧
      ((103 : Int) ≤ 100 → blocksProcessed ext = []) :=
  ⟨by decide,
   (later_cycle_processes_new_blocks ⟨timestamplessNode, okHook⟩ 3
    { freshSys [addrA] with sent := [.eth_blockNumber] } 100 103
    (by decide) (by decide) (by decide) (by decide) (by decide) (by decide)).1 (by decide)⟩

/-- C9 as amended: let `a` be subscribed and let `processBlock` for block `b` reach
its turn in state `sa`, after the subscribers `pre`.  `GetTransactionsForAddress(a,
b)` is called until the first call that succeeds and at most three times, and
`processBlock` then stores and notifies what that call returned and goes on with the
subscribers `post` after `a`.  When all three calls return errors, `processBlock`
goes on with `post` from a state that differs only by the three lookups; when it
completes, the store under `a` is what it was and the block has three lookups, no
store append and no notification for `a`.  A `processBlock` that completes has
looked up every subscriber at least once and at most three times.  A cycle in which
no call panics, with a height `H` below the largest `int64`, ends with the cursor at
`H`, and every lookup it makes is for a block above the cursor it started from:
block `b` is not looked up again in a cycle that starts with the cursor at or above
`b`. -/
theorem lookup_retried_three_times_then_skipped (env : Env) (a : GoString) (b : Int)
    (s sa : Sys) (pre post : List GoString)
    (hsub : s.parser.subscribers = pre ++ a :: post)
    (hsa : beforeTurn env b pre s = .done sa) :
    (∀ (k : Nat) (txs : List Transaction), k < 3 →
      (∀ j, j < k → ∃ e, attemptResult env a b j sa = .error e) →
      attemptResult env a b k sa = .ok txs →
      retryLoop env a b 3 (.ok []) sa = (.ok txs, afterAttempts env a b (k + 1) sa) ∧
      (afterAttempts env a b (k + 1) sa).trace
        = sa.trace ++ List.replicate (k + 1) (.lookup a b) ∧
      processBlock env b s
        = processAddresses env b post
            (storeAndNotify env a txs (afterAttempts env a b (k + 1) sa))) ∧
    ((∀ j, j < 3 → ∃ e, attemptResult env a b j sa = .error e) →
      (∃ e, retryLoop env a b 3 (.ok []) sa = (.error e, afterAttempts env a b 3 sa)) ∧
      (afterAttempts env a b 3 sa).parser = sa.parser ∧
      (afterAttempts env a b 3 sa).trace = sa.trace ++ List.replicate 3 (.lookup a b) ∧
      processBlock env b s = processAddresses env b post (afterAttempts env a b 3 sa) ∧
      (a ∉ pre → a ∉ post → ∀ s1, processBlock env b s = .done s1 →
        s1.parser.storage.transactions a = s.parser.storage.transactions a ∧
        ∃ new, s1.trace = s.trace ++ .processBlock b :: new ∧
          (lookupsMade new).count (a, b) = 3 ∧
          (∀ p ∈ appendsMade new, p.1 ≠ a) ∧
          (∀ p ∈ notificationsMade new, p.1 ≠ a))) ∧
    (∀ s1, processBlock env b s = .done s1 →
      ∃ new, s1.trace = s.trace ++ .processBlock b :: new ∧
        (∀ x, s.parser.subscribers.count x ≤ (lookupsMade new).count (x, b) ∧
          (lookupsMade new).count (x, b) ≤ 3 * s.parser.subscribers.count x)) ∧
    (∀ (fuel : Nat) (s2 : Sys) (c H : Int),
      minInt64 ≤ c → c < maxInt64 → H < maxInt64 →
      (Client.GetBlockNumber env.node s2.sent).1 = .ok H → (H - c).toNat ≤ fuel →
      (pollCycle env fuel ⟨s2, c⟩).panics = false →
      ∃ s3 ext,
        pollCycle env fuel ⟨s2, c⟩ = .done ⟨s3, H⟩ ∧
        s3.trace = s2.trace ++ ext ∧
        (∀ p ∈ lookupsMade ext, c < p.2 ∧ p.2 ≤ H) ∧
        (b ≤ c → (a, b) ∉ lookupsMade ext)) := by
  have hturn := processBlock_at_turn env a b s sa pre post hsub hsa
  refine ⟨?_, ?_, ?_, ?_⟩
  · intro k txs hk hfail hok
    have hr := retryLoop_first_success env a b txs 3 (.ok []) sa k hk hfail hok
    refine ⟨hr, (afterAttempts_trace env a b (k + 1) sa).1, ?_⟩
    rw [hturn]
    conv_lhs => rw [processAddresses]
    rw [hr]
  · intro hfail
    obtain ⟨e, he⟩ := retryLoop_three_fail env a b sa hfail
    have hblock : processBlock env b s
        = processAddresses env b post (afterAttempts env a b 3 sa) := by
      rw [hturn]
      conv_lhs => rw [processAddresses]
      rw [he]
    refine ⟨⟨e, he⟩, (afterAttempts_trace env a b 3 sa).2,
      (afterAttempts_trace env a b 3 sa).1, hblock, ?_⟩
    intro hpre hpost s1 hdone
    rw [hblock] at hdone
    obtain ⟨ext1, p1, _, _, _, p5, p6, p7, p8⟩ := processAddresses_steps env b pre _ sa hsa
    obtain ⟨ext2, q1, _, _, _, q5, q6, q7, q8⟩ :=
      processAddresses_steps env b post _ s1 hdone
    refine ⟨?_, ext1 ++ (List.replicate 3 (.lookup a b) ++ ext2), ?_, ?_, ?_, ?_⟩
    · rw [q8 a hpost, (afterAttempts_trace env a b 3 sa).2, p8 a hpre]
    · rw [q1, (afterAttempts_trace env a b 3 sa).1, p1]
      simp
    · have c1 := (p5 a).2
      have c2 := (q5 a).2
      rw [List.count_eq_zero_of_not_mem hpre] at c1
      rw [List.count_eq_zero_of_not_mem hpost] at c2
      rw [lookupsMade_append, lookupsMade_append, lookupsMade_replicate_lookup,
        List.count_append, List.count_append, count_replicate_pair, if_pos rfl]
      omega
    · intro p hp
      rw [appendsMade_append, appendsMade_append, appendsMade_replicate_lookup,
        List.nil_append, List.mem_append] at hp
      rcases hp with hp | hp
      · exact fun e => hpre (e ▸ p6 p hp)
      · exact fun e => hpost (e ▸ q6 p hp)
    · intro p hp
      rw [notificationsMade_append, notificationsMade_append,
        notificationsMade_replicate_lookup, List.nil_append, List.mem_append] at hp
      rcases hp with hp | hp
      · exact fun e => hpre (e ▸ p7 p hp)
      · exact fun e => hpost (e ▸ q7 p hp)
  · intro s1 hdone
    obtain ⟨new, q1, _, _, _, q5, _⟩ := processBlock_steps env b s s1 hdone
    exact ⟨new, q1, q5⟩
  · intro fuel s2 c H hc1 hc2 hH h hf hnp
    obtain ⟨s3, ext, q1, q2, _, _, q5⟩ := pollCycle_steps env fuel s2 c H hc1 hc2 hH h hf hnp
    refine ⟨s3, ext, q1, q2, q5, ?_⟩
    intro hbc hmem
    have := (q5 (a, b) hmem).1
    simp only at this
    omega

theorem lookup_retried_three_times_then_skipped_witness :
    ((processBlock ⟨wobblingNode, okHook⟩ 101 (freshSys [addrB, addrA, addrC])).getD
        (freshSys [addrB, addrA, addrC])).parser.storage.transactions addrA
      = (freshSys [addrB, addrA, addrC]).parser.storage.transactions addrA ∧
    (∃ new,
      ((processBlock ⟨wobblingNode, okHook⟩ 101 (freshSys [addrB, addrA, addrC])).getD
          (freshSys [addrB, addrA, addrC])).trace
        = (freshSys [addrB, addrA, addrC]).trace ++ .processBlock 101 :: new ∧
      (lookupsMade new).count (addrA, 101) = 3 ∧
      (∀ p ∈ appendsMade new, p.1 ≠ addrA) ∧
      (∀ p ∈ notificationsMade new, p.1 ≠ addrA)) ∧
    retryLoop ⟨scenarioNode, okHook⟩ addrA 101 3 (.ok [])
        { freshSys [addrA] with trace := [.processBlock 101] }
      = (.ok [toTransaction (txFromTo (bytes "0xh1") addrA addrB)],
          afterAttempts ⟨scenarioNode, okHook⟩ addrA 101 (0 + 1)
            { freshSys [addrA] with trace := [.processBlock 101] }) :=
  ⟨(((lookup_retried_three_times_then_skipped ⟨wobblingNode, okHook⟩ addrA 101
        (freshSys [addrB, addrA, addrC])
        ((beforeTurn ⟨wobblingNode, okHook⟩ 101 [addrB] (freshSys [addrB, addrA, addrC])).getD
          (freshSys [addrB, addrA, addrC]))
        [addrB] [addrC] rfl (beforeTurn_done _ _ _ _ (by decide))).2.1
      (by intro j hj; exact ⟨.request, by interval_cases j <;> decide⟩)).2.2.2.2
      (by decide) (by decide) _
      (exec_done_of_not_panics _ _ (by decide) (processBlock_ne_outOfFuel _ _ _))).1,
   (((lookup_retried_three_times_then_skipped ⟨wobblingNode, okHook⟩ addrA 101
        (freshSys [addrB, addrA, addrC])
        ((beforeTurn ⟨wobblingNode, okHook⟩ 101 [addrB] (freshSys [addrB, addrA, addrC])).getD
          (freshSys [addrB, addrA, addrC]))
        [addrB] [addrC] rfl (beforeTurn_done _ _ _ _ (by decide))).2.1
      (by intro j hj; exact ⟨.request, by interval_cases j <;> decide⟩)).2.2.2.2
      (by decide) (by decide) _
      (exec_done_of_not_panics _ _ (by decide) (processBlock_ne_outOfFuel _ _ _))).2,
   ((lookup_retried_three_times_then_skipped ⟨scenarioNode, okHook⟩ addrA 101
        (freshSys [addrA]) { freshSys [addrA] with trace := [.processBlock 101] }
        [] [] rfl rfl).1 0 [toTransaction (txFromTo (bytes "0xh1") addrA addrB)]
      (by decide) (by intro j hj; omega) (by decide)).1⟩

/-! ## Claims about storing and notifying -/

theorem appendsMade_map_forget (tr : List Event) :
    appendsMade (tr.map Event.forget) = appendsMade tr := by
  induction tr with
  | nil => rfl
  | cons e rest ih => cases e <;> simp_all [appendsMade, Event.forget]

theorem notificationsMade_map_forget (tr : List Event) :
    notificationsMade (tr.map Event.forget) = notificationsMade tr := by
  induction tr with
  | nil => rfl
  | cons e rest ih => cases e <;> simp_all [notificationsMade, Event.forget]

/-- C12: let `a` be subscribed and let `processBlock` for block `b` reach its turn in
state `sa`, after the subscribers `pre`.  When the lookup for `a` succeeds with the
transactions `txs`, `processBlock` appends them in that order to the store under the
key `a`, leaving every other key as it was, and its steps for `a` are, for each
transaction in turn, the store append followed by one notification; it then goes on
with the subscribers after `a`.  When `processBlock` completes, the store under `a`
has grown by `txs` and the block has no other store append or notification for `a`.
The result of `processBlock` is the same under any two webhooks, up to the recorded
results of the deliveries: the same store, requests, lookups, store appends and
notifications, and the run completes under one exactly when it does under the
other. -/
theorem lookup_success_stores_then_notifies (env : Env) (a : GoString) (b : Int)
    (s sa : Sys) (pre post : List GoString) (txs : List Transaction)
    (hsub : s.parser.subscribers = pre ++ a :: post)
    (hsa : beforeTurn env b pre s = .done sa)
    (h : (retryLoop env a b 3 (.ok []) sa).1 = .ok txs) :
    processBlock env b s
      = processAddresses env b post
          (storeAndNotify env a txs (retryLoop env a b 3 (.ok []) sa).2) ∧
    (storeAndNotify env a txs (retryLoop env a b 3 (.ok []) sa).2).parser.storage.transactions a
      = sa.parser.storage.transactions a ++ txs ∧
    (∀ x, x ≠ a →
      (storeAndNotify env a txs (retryLoop env a b 3 (.ok []) sa).2).parser.storage.transactions x
        = sa.parser.storage.transactions x) ∧
    (∃ ds : List Bool, ds.length = txs.length ∧
      (storeAndNotify env a txs (retryLoop env a b 3 (.ok []) sa).2).trace
        = (retryLoop env a b 3 (.ok []) sa).2.trace ++ storeSteps a txs ds) ∧
    (a ∉ pre → a ∉ post → ∀ s1, processBlock env b s = .done s1 →
      s1.parser.storage.transactions a = s.parser.storage.transactions a ++ txs ∧
      ∃ (before : List Event) (ds : List Bool) (after : List Event),
        ds.length = txs.length ∧
        s1.trace = s.trace ++ .processBlock b :: (before ++ storeSteps a txs ds ++ after) ∧
        (∀ p ∈ appendsMade before, p.1 ≠ a) ∧ (∀ p ∈ notificationsMade before, p.1 ≠ a) ∧
        (∀ p ∈ appendsMade after, p.1 ≠ a) ∧ (∀ p ∈ notificationsMade after, p.1 ≠ a)) ∧
    (∀ (hook2 : Webhook) (s0 : Sys),
      (processBlock env b s0).map Sys.forget
        = (processBlock ⟨env.node, hook2⟩ b s0).map Sys.forget) ∧
    (∀ (hook2 : Webhook) (s0 r1 r2 : Sys),
      processBlock env b s0 = .done r1 → processBlock ⟨env.node, hook2⟩ b s0 = .done r2 →
      r1.parser.storage = r2.parser.storage ∧ r1.sent = r2.sent ∧
      lookupsMade r1.trace = lookupsMade r2.trace ∧
      appendsMade r1.trace = appendsMade r2.trace ∧
      notificationsMade r1.trace = notificationsMade r2.trace) := by
  have hturn := processBlock_at_turn env a b s sa pre post hsub hsa
  obtain ⟨k, _, _, ht, hp⟩ := retryLoop_calls env a b 2 (.ok []) sa
  have hblock : processBlock env b s
      = processAddresses env b post
          (storeAndNotify env a txs (retryLoop env a b 3 (.ok []) sa).2) := by
    rw [hturn]
    conv_lhs => rw [processAddresses]
    cases hr : retryLoop env a b 3 (.ok []) sa with
    | mk r t =>
      rw [hr] at h
      simp only at h
      subst h
      rfl
  obtain ⟨ds, hds, hsteps⟩ :=
    storeAndNotify_steps env a txs (retryLoop env a b 3 (.ok []) sa).2
  refine ⟨hblock, ?_, ?_, ⟨ds, hds, hsteps⟩, ?_, ?_, ?_⟩
  · rw [storeAndNotify_storage, if_pos rfl, hp]
  · intro x hx
    rw [storeAndNotify_storage, if_neg hx, hp]
  · intro hpre hpost s1 hdone
    rw [hblock] at hdone
    obtain ⟨ext1, p1, _, _, _, _, p6, p7, p8⟩ := processAddresses_steps env b pre _ sa hsa
    obtain ⟨ext2, q1, _, _, _, _, q6, q7, q8⟩ :=
      processAddresses_steps env b post _ s1 hdone
    refine ⟨?_, ext1 ++ List.replicate k (.lookup a b), ds, ext2, hds, ?_, ?_, ?_, ?_, ?_⟩
    · rw [q8 a hpost, storeAndNotify_storage, if_pos rfl, hp, p8 a hpre]
    · rw [q1, hsteps, ht, p1]
      simp
    · intro p hpm
      rw [appendsMade_append, appendsMade_replicate_lookup, List.append_nil] at hpm
      exact fun e => hpre (e ▸ p6 p hpm)
    · intro p hpm
      rw [notificationsMade_append, notificationsMade_replicate_lookup,
        List.append_nil] at hpm
      exact fun e => hpre (e ▸ p7 p hpm)
    · intro p hpm
      exact fun e => hpost (e ▸ q6 p hpm)
    · intro p hpm
      exact fun e => hpost (e ▸ q7 p hpm)
  · intro hook2 s0
    exact processBlock_forget env.node env.hook hook2 b s0
  · intro hook2 s0 r1 r2 e1 e2
    have hf := processBlock_forget env.node env.hook hook2 b s0
    have e1f : processBlock ⟨env.node, env.hook⟩ b s0 = .done r1 := e1
    rw [e1f, e2] at hf
    simp only [Exec.map, Exec.done.injEq, Sys.forget, Sys.mk.injEq] at hf
    obtain ⟨g1, g2, g3⟩ := hf
    refine ⟨by rw [g1], g2, ?_, ?_, ?_⟩
    · rw [← lookupsMade_map_forget r1.trace, g3, lookupsMade_map_forget]
    · rw [← appendsMade_map_forget r1.trace, g3, appendsMade_map_forget]
    · rw [← notificationsMade_map_forget r1.trace, g3, notificationsMade_map_forget]

theorem lookup_success_stores_then_notifies_witness :
    ((processBlock ⟨busyNode, flakyHook⟩ 7 storedSys).result.map
        (fun r => (r.parser.storage.transactions addrA, r.parser.storage.transactions addrC,
          r.trace.take 8)))
      = some ([oldTx, toTransaction (txFromTo (bytes "0xh1") addrA addrB),
                toTransaction (txFromTo (bytes "0xh3") addrB addrA)], [],
              [.processBlock 7, .lookup addrC 7, .lookup addrA 7,
               .store addrA (toTransaction (txFromTo (bytes "0xh1") addrA addrB)),
               .post addrA (toTransaction (txFromTo (bytes "0xh1") addrA addrB)) false,
               .store addrA (toTransaction (txFromTo (bytes "0xh3") addrB addrA)),
               .post addrA (toTransaction (txFromTo (bytes "0xh3") addrB addrA)) true,
               .lookup addrB 7]) ∧
    ((processBlock ⟨busyNode, failHook⟩ 7 storedSys).result.map
        (fun r => (r.parser.storage.transactions addrA, lookupsMade r.trace)))
      = ((processBlock ⟨busyNode, okHook⟩ 7 storedSys).result.map
        (fun r => (r.parser.storage.transactions addrA, lookupsMade r.trace))) ∧
    ((processBlock ⟨busyNode, flakyHook⟩ 7 storedSys).getD storedSys).parser.storage.transactions
        addrA
      = storedSys.parser.storage.transactions addrA
        ++ [toTransaction (txFromTo (bytes "0xh1") addrA addrB),
            toTransaction (txFromTo (bytes "0xh3") addrB addrA)] :=
  ⟨by decide, by decide,
   ((lookup_success_stores_then_notifies ⟨busyNode, flakyHook⟩ addrA 7 storedSys
      ((beforeTurn ⟨busyNode, flakyHook⟩ 7 [addrC] storedSys).getD storedSys)
      [addrC] [addrB]
      [toTransaction (txFromTo (bytes "0xh1") addrA addrB),
       toTransaction (txFromTo (bytes "0xh3") addrB addrA)]
      rfl (beforeTurn_done _ _ _ _ (by decide)) (by decide)).2.2.2.2.1
      (by decide) (by decide) _
      (exec_done_of_not_panics _ _ (by decide) (processBlock_ne_outOfFuel _ _ _))).1⟩

/-! ## Claims about runs of several cycles -/

theorem pollCycle_panics_of_height (env : Env) (fuel : Nat) (st : Poller)
    (h : (Client.GetBlockNumber env.node st.sys.sent).1 = .panicked) :
    pollCycle env fuel st = .panicked := by
  unfold pollCycle
  rw [GetBlockNumber_eq, h]

theorem run_steps (env : Env) (fuel : Nat) (n : Nat) :
    ∀ (st : Poller), 0 ≤ st.lastProcessedBlock → st.lastProcessedBlock < maxInt64 →
      List.Chain (fun x y => x ≤ y) st.lastProcessedBlock (observedHeights env fuel n st) →
      (∀ H ∈ observedHeights env fuel n st, 0 < H ∧ H < maxInt64 ∧ H.toNat ≤ fuel) →
      (pollCycles env fuel n st).panics = false →
      ∃ st1, pollCycles env fuel n st = .done st1 ∧
        (cursors env fuel n st).length = n ∧
        List.Chain (fun x y => x ≤ y) st.lastProcessedBlock (cursors env fuel n st) ∧
        st1.lastProcessedBlock = (observedHeights env fuel n st).getLastD st.lastProcessedBlock ∧
        blocksProcessed st1.sys.trace
          = blocksProcessed st.sys.trace
            ++ expectedBlocks st.lastProcessedBlock (observedHeights env fuel n st) := by
  induction n with
  | zero =>
    intro st _ _ _ _ _
    exact ⟨st, rfl, rfl, List.Chain.nil, rfl, by simp [observedHeights, expectedBlocks]⟩
  | succ n ih =>
    intro st hc1 hc2 hch hrange hnp
    cases hr : (Client.GetBlockNumber env.node st.sys.sent).1 with
    | panicked =>
      rw [pollCycles, pollCycle_panics_of_height env fuel st hr] at hnp
      simp [Exec.panics] at hnp
    | error e =>
      have hcyc := pollCycle_error env fuel st e hr
      have hh : heightResult env st = none := by simp [heightResult, hr]
      simp only [observedHeights, hcyc, hh, Option.toList, List.nil_append] at hch hrange ⊢
      simp only [pollCycles, hcyc] at hnp
      obtain ⟨st1, p1, p2, p3, p4, p5⟩ :=
        ih ⟨{ st.sys with sent := st.sys.sent ++ [.eth_blockNumber] }, st.lastProcessedBlock⟩
          hc1 hc2 hch hrange hnp
      refine ⟨st1, ?_, ?_, ?_, p4, p5⟩
      · simp only [pollCycles, hcyc, p1]
      · simp only [cursors, hcyc, List.length_cons, p2]
      · simp only [cursors, hcyc]
        exact List.Chain.cons (le_refl _) p3
    | ok H =>
      have hh : heightResult env st = some H := by simp [heightResult, hr]
      have hmem : H ∈ observedHeights env fuel (n + 1) st := by
        simp only [observedHeights, hh, Option.toList]
        split <;> simp
      obtain ⟨hH0, hH1, hH2⟩ := hrange H hmem
      have hnp1 : (pollCycle env fuel ⟨st.sys, st.lastProcessedBlock⟩).panics = false := by
        cases hp : pollCycle env fuel st with
        | done _ => rfl
        | outOfFuel => rfl
        | panicked => rw [pollCycles, hp] at hnp; simp [Exec.panics] at hnp
      obtain ⟨s1, ext, hcyc, hext, _, hblocks, _⟩ :=
        pollCycle_steps env fuel st.sys st.lastProcessedBlock H
          (by unfold minInt64; omega) hc2 hH1 hr (by omega) hnp1
      have hcyc2 : pollCycle env fuel st = .done ⟨s1, H⟩ := hcyc
      simp only [observedHeights, hcyc2, hh, Option.toList, List.singleton_append] at hch hrange ⊢
      simp only [pollCycles, hcyc2] at hnp
      rw [List.chain_cons] at hch
      obtain ⟨st1, p1, p2, p3, p4, p5⟩ := ih ⟨s1, H⟩ (by simp only; omega) hH1 hch.2
        (fun x hx => hrange x (List.mem_cons_of_mem _ hx)) hnp
      refine ⟨st1, ?_, ?_, ?_, ?_, ?_⟩
      · simp only [pollCycles, hcyc2, p1]
      · simp only [cursors, hcyc2, List.length_cons, p2]
      · simp only [cursors, hcyc2]
        exact List.Chain.cons hch.1 p3
      · rw [p4, List.getLastD_cons]
      · rw [p5, hext, blocksProcessed_append, hblocks, expectedBlocks, List.append_assoc]

/-- C11 as amended: in a run of `n` cycles in which no call panics and the heights
returned by the successful height queries are positive, below the largest `int64`
and non-decreasing (height queries may fail in between), every cycle completes, the
cursor never decreases from one cycle to the next and ends at the latest observed
height, and the blocks passed to `processBlock` over the whole run are exactly those
above the first observed height and at most the latest one, each once, in increasing
order.  In any cycle that does not panic, with cursor `c` and height `H` below the
largest `int64`, the cursor becomes `H`, also when `H` is less than `c`, and the
blocks processed are `c+1, ..., H` when `c` is not 0 (none when `H ≤ c`) and none
when `c` is 0. -/
theorem sorted_heights_process_each_block_once (env : Env) (fuel n : Nat) (s : Sys)
    (hsorted : List.Chain (fun x y => x ≤ y) 0 (observedHeights env fuel n (Poller.start s)))
    (hrange : ∀ H ∈ observedHeights env fuel n (Poller.start s),
      0 < H ∧ H < maxInt64 ∧ H.toNat ≤ fuel)
    (hnp : (pollCycles env fuel n (Poller.start s)).panics = false) :
    (∃ st, pollCycles env fuel n (Poller.start s) = .done st ∧
      (cursors env fuel n (Poller.start s)).length = n ∧
      List.Chain (fun x y => x ≤ y) 0 (cursors env fuel n (Poller.start s)) ∧
      st.lastProcessedBlock = (observedHeights env fuel n (Poller.start s)).getLastD 0 ∧
      ∃ new, blocksProcessed st.sys.trace = blocksProcessed s.trace ++ new ∧
        (observedHeights env fuel n (Poller.start s) = [] → new = []) ∧
        (∀ H0 rest, observedHeights env fuel n (Poller.start s) = H0 :: rest →
          new = interval (H0 + 1) st.lastProcessedBlock ∧
          ∀ b, new.count b = if H0 < b ∧ b ≤ st.lastProcessedBlock then 1 else 0)) ∧
    (∀ (fuel2 : Nat) (s2 : Sys) (c H : Int),
      minInt64 ≤ c → c < maxInt64 → H < maxInt64 →
      (Client.GetBlockNumber env.node s2.sent).1 = .ok H → (H - c).toNat ≤ fuel2 →
      (pollCycle env fuel2 ⟨s2, c⟩).panics = false →
      ∃ s3, pollCycle env fuel2 ⟨s2, c⟩ = .done ⟨s3, H⟩ ∧
        blocksProcessed s3.trace
          = blocksProcessed s2.trace ++ (if c = 0 then [] else interval (c + 1) H) ∧
        (H ≤ c → blocksProcessed s3.trace = blocksProcessed s2.trace)) := by
  refine ⟨?_, ?_⟩
  · obtain ⟨st, p1, p2, p3, p4, p5⟩ := run_steps env fuel n (Poller.start s)
      (le_refl _) (by show (0 : Int) < maxInt64; decide) hsorted hrange hnp
    refine ⟨st, p1, p2, p3, p4, _, p5, ?_, ?_⟩
    · intro he
      rw [he]; rfl
    · intro H0 rest he
      rw [he] at hsorted hrange p4
      rw [List.chain_cons] at hsorted
      have hH0 : 0 < H0 := (hrange H0 (List.mem_cons_self _ _)).1
      have hexp : expectedBlocks (Poller.start s).lastProcessedBlock
          (observedHeights env fuel n (Poller.start s))
            = interval (H0 + 1) st.lastProcessedBlock := by
        rw [he, p4, List.getLastD_cons]
        show (if (0 : Int) = 0 then [] else interval (0 + 1) H0) ++ expectedBlocks H0 rest = _
        rw [if_pos rfl, List.nil_append]
        exact expectedBlocks_sorted rest H0 (by omega) hsorted.2
          (fun x hx => (hrange x (List.mem_cons_of_mem _ hx)).1)
      refine ⟨hexp, ?_⟩
      intro b
      rw [hexp, count_interval]
      have e : (H0 + 1 ≤ b ∧ b ≤ st.lastProcessedBlock)
          ↔ (H0 < b ∧ b ≤ st.lastProcessedBlock) := by
        constructor <;> rintro ⟨h1, h2⟩ <;> exact ⟨by omega, h2⟩
      simp only [e]
  · intro fuel2 s2 c H hc1 hc2 hH h hf hnp2
    obtain ⟨s3, ext, q1, q2, _, q4, _⟩ := pollCycle_steps env fuel2 s2 c H hc1 hc2 hH h hf hnp2
    refine ⟨s3, q1, ?_, ?_⟩
    · rw [q2, blocksProcessed_append, q4]
    · intro hle
      rw [q2, blocksProcessed_append, q4]
      by_cases hc0 : c = 0
      · simp [hc0]
      · rw [if_neg hc0, interval_empty _ _ (by omega), List.append_nil]

theorem observedHeights_timestampless :
    observedHeights ⟨timestamplessNode, okHook⟩ 103 2 (Poller.start (freshSys [addrA]))
      = [100, 103] := by
  decide

theorem sorted_heights_process_each_block_once_witness :
    (Client.GetTransactionsForAddress timestamplessNode addrB 102 []).1 = .panicked ∧
    ∃ st, pollCycles ⟨timestamplessNode, okHook⟩ 103 2 (Poller.start (freshSys [addrA]))
        = .done st ∧
      (cursors ⟨timestamplessNode, okHook⟩ 103 2 (Poller.start (freshSys [addrA]))).length = 2 ∧
      List.Chain (fun x y => x ≤ y) 0
        (cursors ⟨timestamplessNode, okHook⟩ 103 2 (Poller.start (freshSys [addrA]))) ∧
      st.lastProcessedBlock
        = (observedHeights ⟨timestamplessNode, okHook⟩ 103 2
            (Poller.start (freshSys [addrA]))).getLastD 0 ∧
      ∃ new, blocksProcessed st.sys.trace = blocksProcessed (freshSys [addrA]).trace ++ new ∧
        (observedHeights ⟨timestamplessNode, okHook⟩ 103 2 (Poller.start (freshSys [addrA])) = [] →
          new = []) ∧
        (∀ H0 rest,
          observedHeights ⟨timestamplessNode, okHook⟩ 103 2 (Poller.start (freshSys [addrA]))
            = H0 :: rest →
          new = interval (H0 + 1) st.lastProcessedBlock ∧
          ∀ b, new.count b = if H0 < b ∧ b ≤ st.lastProcessedBlock then 1 else 0) :=
  ⟨by decide,
   (sorted_heights_process_each_block_once ⟨timestamplessNode, okHook⟩ 103 2 (freshSys [addrA])
    (by
      rw [observedHeights_timestampless]
      exact List.Chain.cons (by decide) (List.Chain.cons (by decide) List.Chain.nil))
    (by
      rw [observedHeights_timestampless]
      decide)
    (by decide)).1⟩

end EthParser
